import Mathlib

/-!
Verification of the secure-wipe orchestration layer.

This file gives a shallow embedding, in Lean, of the JavaScript/TypeScript
logic of the repository's core service:

* `SecureWipeService.parseEvents` / `parseEvent`
  (src/main/services/secure-wipe.service.ts, lines 270-354): an incremental,
  string-aware brace scanner over an accumulated text buffer, extracting
  complete JSON objects and classifying them;
* `SecureWipeService.buildArgs` / `addCoreArguments` / `addOptionalArguments`
  (lines 189-264): deterministic argument-vector construction with validation;
* the per-operation runtime of `wipeTarget` (lines 638-730): the stdout /
  stderr / close handlers and `cancel` (lines 901-927), modelled as a fold
  over a trace of runtime actions;
* `SecureWipeUtils.validateFilePath` / `isBlockDevice` / `isSafeToWipe`
  (src/main/utils/secure-wipe.utils.ts) and the service's `validatePath`;
* `AdminPrivilegesUtils.checkPrivileges` / `targetRequiresPrivileges`
  (admin-privileges utility module).

JavaScript strings are modelled as `List Char`, JavaScript numbers that hold
exit codes or option values as `Int` (with JS truthiness: `0` is falsy), and
the filesystem / platform environment as explicit oracle records.  `JSON.parse`
is an external builtin; it is modelled by an executable recursive-descent
parser `parseVal` over a JSON value grammar `JVal`, and "well-formed JSON
object" is formalised as being the rendering (`render`) of an object value
whose strings contain no raw control characters (the JSON grammar requires
control characters to be escaped).
-/

/-! ### Characters that are special to the scanner -/

/-- The `{` character (written via its code point). -/
def lbrace : Char := Char.ofNat 123

/-- The `}` character (written via its code point). -/
def rbrace : Char := Char.ofNat 125

/-- The `"` character. -/
def dquote : Char := Char.ofNat 34

/-- The `\` character. -/
def bslash : Char := Char.ofNat 92

/-- The four special characters are pairwise distinct. -/
@[simp] theorem lbrace_ne_bslash : lbrace ≠ bslash := by decide

@[simp] theorem lbrace_ne_dquote : lbrace ≠ dquote := by decide

@[simp] theorem rbrace_ne_bslash : rbrace ≠ bslash := by decide

@[simp] theorem rbrace_ne_dquote : rbrace ≠ dquote := by decide

@[simp] theorem dquote_ne_bslash : dquote ≠ bslash := by decide

@[simp] theorem rbrace_ne_lbrace : rbrace ≠ lbrace := by decide

@[simp] theorem bslash_ne_lbrace : bslash ≠ lbrace := by decide

@[simp] theorem dquote_ne_lbrace : dquote ≠ lbrace := by decide

@[simp] theorem bslash_ne_rbrace : bslash ≠ rbrace := by decide

@[simp] theorem dquote_ne_rbrace : dquote ≠ rbrace := by decide

@[simp] theorem bslash_ne_dquote : bslash ≠ dquote := by decide

@[simp] theorem lbrace_ne_rbrace : lbrace ≠ rbrace := by decide

/-- ASCII decimal digit test, as used by the number parser. -/
def isDigitCh (c : Char) : Bool := 48 ≤ c.toNat && c.toNat ≤ 57

/-- JSON insignificant whitespace (space, tab, line feed, carriage return). -/
def isWsCh (c : Char) : Bool :=
  c.toNat == 32 || c.toNat == 9 || c.toNat == 10 || c.toNat == 13

/-! ### The JSON value grammar

`JVal` models the values `JSON.parse` can return for the wrapped binary's
protocol; object member lists and array element lists are separate mutual
inductives so that all recursions below are structural. -/

mutual

/-- A JSON value: null, boolean, natural number, string, array or object. -/
inductive JVal : Type where
  | jnull : JVal
  | jbool : Bool → JVal
  | jnum : Nat → JVal
  | jstr : List Char → JVal
  | jarr : JElems → JVal
  | jobj : JFields → JVal

/-- The member list of a JSON object. -/
inductive JFields : Type where
  | fnil : JFields
  | fcons : List Char → JVal → JFields → JFields

/-- The element list of a JSON array. -/
inductive JElems : Type where
  | enil : JElems
  | econs : JVal → JElems → JElems

end

open JVal JFields JElems

/-! ### Rendering JSON values to text -/

/-- Escape a string body: `"` and `\` get a backslash, as in JSON. -/
def escapeStr : List Char → List Char
  | [] => []
  | c :: r =>
    if c = dquote ∨ c = bslash then bslash :: c :: escapeStr r
    else c :: escapeStr r

/-- Big-endian decimal digits of a positive number (empty for 0). -/
def toBE (n : Nat) : List Char :=
  if h : n = 0 then []
  else toBE (n / 10) ++ [Char.ofNat (48 + n % 10)]
decreasing_by exact Nat.div_lt_self (Nat.pos_of_ne_zero h) (by omega)

/-- Decimal rendering of a natural number. -/
def renderNum (n : Nat) : List Char :=
  if n = 0 then [Char.ofNat 48] else toBE n

/-- Rendering of a JSON string literal (quotes plus escaped body). -/
def renderKey (s : List Char) : List Char := dquote :: escapeStr s ++ [dquote]

mutual

/-- Canonical rendering of a JSON value (no insignificant whitespace). -/
def render : JVal → List Char
  | jnull => ['n', 'u', 'l', 'l']
  | jbool true => ['t', 'r', 'u', 'e']
  | jbool false => ['f', 'a', 'l', 's', 'e']
  | jnum n => renderNum n
  | jstr s => renderKey s
  | jarr es => '[' :: renderElems es ++ [']']
  | jobj fs => lbrace :: renderFields fs ++ [rbrace]

/-- Rendering of an object's member list (without the braces). -/
def renderFields : JFields → List Char
  | fnil => []
  | fcons k v rest => renderKey k ++ ':' :: render v ++ renderFieldsTail rest

/-- Rendering of the members after the first, each preceded by a comma. -/
def renderFieldsTail : JFields → List Char
  | fnil => []
  | fcons k v rest => ',' :: renderKey k ++ ':' :: render v ++ renderFieldsTail rest

/-- Rendering of an array's element list (without the brackets). -/
def renderElems : JElems → List Char
  | enil => []
  | econs v rest => render v ++ renderElemsTail rest

/-- Rendering of the elements after the first, each preceded by a comma. -/
def renderElemsTail : JElems → List Char
  | enil => []
  | econs v rest => ',' :: render v ++ renderElemsTail rest

end

/-! ### Fuel measure for the parser -/

mutual

/-- Recursion-depth measure of a value: a lower bound on the parser fuel. -/
def msize : JVal → Nat
  | jnull | jbool _ | jnum _ | jstr _ => 1
  | jarr es => 1 + msizeE es
  | jobj fs => 1 + msizeF fs

/-- Recursion-depth measure of a member list. -/
def msizeF : JFields → Nat
  | fnil => 0
  | fcons _ v rest => 1 + msize v + msizeF rest

/-- Recursion-depth measure of an element list. -/
def msizeE : JElems → Nat
  | enil => 0
  | econs v rest => 1 + msize v + msizeE rest

end

/-! ### The model of `JSON.parse` -/

/-- Drop leading JSON whitespace. -/
def skipWs (s : List Char) : List Char := s.dropWhile isWsCh

/-- Parse a string body after the opening quote, up to the closing quote;
only the escapes `\"` and `\\` (the ones `escapeStr` produces) are accepted. -/
def parseStringBody : List Char → Option (List Char × List Char)
  | [] => none
  | c :: r =>
    if c = dquote then some ([], r)
    else if c = bslash then
      match r with
      | [] => none
      | d :: r2 =>
        if d = dquote ∨ d = bslash then
          match parseStringBody r2 with
          | some (s, rest) => some (d :: s, rest)
          | none => none
        else none
    else
      match parseStringBody r with
      | some (s, rest) => some (c :: s, rest)
      | none => none

/-- Numeric value of a big-endian run of decimal digit characters. -/
def digitsVal (ds : List Char) : Nat :=
  ds.foldl (fun a c => 10 * a + (c.toNat - 48)) 0

/-- Parse a nonempty run of decimal digits into a natural number. -/
def parseNum (s : List Char) : Option (Nat × List Char) :=
  let ds := s.takeWhile isDigitCh
  if ds.isEmpty then none
  else some (digitsVal ds, s.dropWhile isDigitCh)

/-- Check a literal prefix such as `rue` / `alse` / `ull`. -/
def chompLit : List Char → List Char → Option (List Char)
  | [], s => some s
  | l :: ls, c :: s => if c = l then chompLit ls s else none
  | _ :: _, [] => none

mutual

/-- Recursive-descent model of `JSON.parse` for a single value, with fuel.
Skips leading whitespace, then dispatches on the first character. -/
def parseVal : Nat → List Char → Option (JVal × List Char)
  | 0, _ => none
  | Nat.succ f, s =>
    match skipWs s with
    | [] => none
    | c :: r =>
      if c = dquote then
        match parseStringBody r with
        | some (str, rest) => some (jstr str, rest)
        | none => none
      else if c = lbrace then
        match skipWs r with
        | c2 :: r2 =>
          if c2 = rbrace then some (jobj fnil, r2)
          else
            match parseMembers f (c2 :: r2) with
            | some (fs, rest) => some (jobj fs, rest)
            | none => none
        | [] => none
      else if c = '[' then
        match skipWs r with
        | c2 :: r2 =>
          if c2 = ']' then some (jarr enil, r2)
          else
            match parseElems f (c2 :: r2) with
            | some (es, rest) => some (jarr es, rest)
            | none => none
        | [] => none
      else if c = 't' then
        match chompLit ['r', 'u', 'e'] r with
        | some rest => some (jbool true, rest)
        | none => none
      else if c = 'f' then
        match chompLit ['a', 'l', 's', 'e'] r with
        | some rest => some (jbool false, rest)
        | none => none
      else if c = 'n' then
        match chompLit ['u', 'l', 'l'] r with
        | some rest => some (jnull, rest)
        | none => none
      else if isDigitCh c then
        match parseNum (c :: r) with
        | some (n, rest) => some (jnum n, rest)
        | none => none
      else none

/-- Parse a nonempty member list up to and including the closing brace. -/
def parseMembers : Nat → List Char → Option (JFields × List Char)
  | 0, _ => none
  | Nat.succ f, s =>
    match skipWs s with
    | c :: r =>
      if c = dquote then
        match parseStringBody r with
        | some (k, rest) =>
          (match skipWs rest with
           | c2 :: r2 =>
             if c2 = ':' then
               match parseVal f r2 with
               | some (v, rest2) =>
                 (match skipWs rest2 with
                  | c3 :: r3 =>
                    if c3 = ',' then
                      match parseMembers f r3 with
                      | some (fs, rest3) => some (fcons k v fs, rest3)
                      | none => none
                    else if c3 = rbrace then some (fcons k v fnil, r3)
                    else none
                  | [] => none)
               | none => none
             else none
           | [] => none)
        | none => none
      else none
    | [] => none

/-- Parse a nonempty element list up to and including the closing bracket. -/
def parseElems : Nat → List Char → Option (JElems × List Char)
  | 0, _ => none
  | Nat.succ f, s =>
    match parseVal f s with
    | some (v, rest) =>
      (match skipWs rest with
       | c :: r =>
         if c = ',' then
           match parseElems f r with
           | some (es, rest2) => some (econs v es, rest2)
           | none => none
         else if c = ']' then some (econs v enil, r)
         else none
       | [] => none)
    | none => none

end

/-- Full-string model of `JSON.parse`: one value, then only trailing
whitespace is allowed. -/
def jsonParse (s : List Char) : Option JVal :=
  match parseVal (s.length + 1) s with
  | some (v, rest) => if skipWs rest = [] then some v else none
  | none => none

/-! ### Event classification (`parseEvent`, service lines 328-354)

`parseEvent` trims the candidate span, returns `null` when it is empty,
calls `JSON.parse`, and classifies the result: if the fields `os_name`,
`os_version` and `architecture` are all present and truthy it is a
`SystemInfo` payload, otherwise a `SecureWipeEvent`. -/

/-- Field lookup on a parsed JSON value (first matching key), `none` for
non-objects or missing keys, like JS property access yielding `undefined`. -/
def getField : JVal → List Char → Option JVal
  | jobj fs, k => getFieldF fs k
  | _, _ => none
where
  /-- Lookup in a member list. -/
  getFieldF : JFields → List Char → Option JVal
  | fnil, _ => none
  | fcons k1 v rest, k => if k1 = k then some v else getFieldF rest k

/-- JavaScript truthiness of a JSON value (`""`, `0`, `false`, `null` are
falsy; objects and arrays are truthy). -/
def truthy : JVal → Bool
  | jnull => false
  | jbool b => b
  | jnum n => n != 0
  | jstr s => !s.isEmpty
  | jarr _ => true
  | jobj _ => true

/-- Truthiness of a field access, `undefined` (missing) being falsy. -/
def truthyField (v : JVal) (k : List Char) : Bool :=
  match getField v k with
  | some x => truthy x
  | none => false

/-- JS `'k' in event`: key presence regardless of its value. -/
def hasField (v : JVal) (k : List Char) : Bool := (getField v k).isSome

/-- The result of `parseEvent`: the parsed value, tagged with the branch
taken (SystemInfo vs SecureWipeEvent). -/
inductive Parsed : Type where
  | sys : JVal → Parsed
  | evt : JVal → Parsed

/-- The JSON value inside a classified event. -/
def Parsed.val : Parsed → JVal
  | .sys v => v
  | .evt v => v

/-- Classification branch of `parseEvent`: SystemInfo iff `os_name`,
`os_version` and `architecture` are all truthy. -/
def classify (v : JVal) : Parsed :=
  if truthyField v "os_name".data && truthyField v "os_version".data &&
      truthyField v "architecture".data then .sys v
  else .evt v

/-- JS `String.prototype.trim` on the whitespace the protocol uses. -/
def trimChars (s : List Char) : List Char :=
  ((s.dropWhile isWsCh).reverse.dropWhile isWsCh).reverse

/-- Model of `parseEvent` (service lines 328-354): trim, reject empty,
`JSON.parse`, classify; a parse failure yields `none` (the catch branch). -/
def parseEventFn (s : List Char) : Option Parsed :=
  let t := trimChars s
  if t.isEmpty then none
  else
    match jsonParse t with
    | some v => some (classify v)
    | none => none

/-! ### The incremental scanner (`parseEvents`, service lines 270-323)

The service keeps a growing `jsonBuffer`; on each data chunk it appends the
chunk and scans character by character with `braceCount` (an ordinary JS
number, so it can go negative: modelled as `Int`), `inString`, `escapeNext`
and `startIndex`.  When a `}` outside a string returns the depth to zero the
substring from the last top-level `{` is extracted, `parseEvent` is applied
to it, the consumed prefix is removed from the buffer and scanning restarts
on the remainder with the same (all-initial) state.

The model below carries, instead of `startIndex` indices:
* `kept`: the characters since the last extraction, reversed — exactly what
  remains in `jsonBuffer` if scanning stops now;
* `span`: the characters since the last `{` seen at depth zero, reversed —
  exactly `jsonBuffer.substring(startIndex, i)`.  `startIndex` is only read
  when a `}` takes the depth from one to zero, and the depth can only reach
  one through a `{` processed at depth zero (the sole increment), which is
  precisely when `startIndex` is (re)assigned; so accumulating from that
  `{` on reproduces the extracted substring. -/

/-- Scanner state between characters. -/
structure ScanState : Type where
  kept : List Char
  span : List Char
  depth : Int
  inStr : Bool
  esc : Bool
deriving Repr, DecidableEq

/-- The state at the start of a scan and right after each extraction. -/
def initScan : ScanState := ⟨[], [], 0, false, false⟩

/-- Append a consumed character to the retained buffer, and to the current
candidate span when the scan position is inside a candidate object. -/
def pushCh (st : ScanState) (c : Char) : ScanState :=
  { st with kept := c :: st.kept,
            span := if 1 ≤ st.depth then c :: st.span else st.span }

/-- One full scan of the remaining characters: returns the extracted spans
(in order) and the final state.  Mirrors the loop of `parseEvents`. -/
def scanFull : List Char → ScanState → List (List Char) × ScanState
  | [], st => ([], st)
  | c :: rest, st =>
    if st.esc then scanFull rest { pushCh st c with esc := false }
    else if c = bslash then scanFull rest { pushCh st c with esc := true }
    else if c = dquote then scanFull rest { pushCh st c with inStr := !st.inStr }
    else if st.inStr then scanFull rest (pushCh st c)
    else if c = lbrace then
      if st.depth = 0 then
        scanFull rest { kept := c :: st.kept, span := [c], depth := 1,
                        inStr := false, esc := false }
      else scanFull rest { pushCh st c with depth := st.depth + 1 }
    else if c = rbrace then
      if st.depth = 1 then
        let ev := (c :: st.span).reverse
        let p := scanFull rest initScan
        (ev :: p.1, p.2)
      else scanFull rest { pushCh st c with depth := st.depth - 1 }
    else scanFull rest (pushCh st c)

/-- `parseEvents` on a whole buffer: extracted spans and leftover buffer. -/
def scanTop (buf : List Char) : List (List Char) × List Char :=
  let p := scanFull buf initScan
  (p.1, p.2.kept.reverse)

/-- Model of one `parseEvents(data)` call on a service whose `jsonBuffer`
holds `buf`: events parsed from the extracted spans, and the new buffer. -/
def feedOne (buf data : List Char) : List Parsed × List Char :=
  let p := scanTop (buf ++ data)
  (p.1.filterMap parseEventFn, p.2)

/-- Feeding a sequence of chunks to one parser instance, accumulating the
emitted events in order and threading the buffer. -/
def feedAll : List (List Char) → List Char → List Parsed × List Char
  | [], buf => ([], buf)
  | d :: ds, buf =>
    let p := feedOne buf d
    let q := feedAll ds p.2
    (p.1 ++ q.1, q.2)

/-! ### Scanner lemmas: composition and rescan -/

/-- Scanning a concatenation is scanning the parts in sequence. -/
theorem scanFull_append (xs ys : List Char) (st : ScanState) :
    scanFull (xs ++ ys) st =
      ((scanFull xs st).1 ++ (scanFull ys (scanFull xs st).2).1,
       (scanFull ys (scanFull xs st).2).2) := by
  induction xs generalizing st with
  | nil => simp [scanFull]
  | cons c xs ih =>
    simp only [List.cons_append, scanFull]
    split_ifs <;> simp [ih]

/-- A state is reachable when rescanning its retained buffer from the
initial state yields no events and reproduces the state.  `parseEvents`
relies on this: each call rescans the leftover buffer from scratch. -/
def Reach (st : ScanState) : Prop :=
    scanFull st.kept.reverse initScan = ([], st)

theorem reach_init : Reach initScan := by
  simp [Reach, initScan, scanFull]

/-- Scanning preserves reachability of the final state. -/
theorem reach_scanFull (xs : List Char) (st : ScanState) (h : Reach st) :
    Reach (scanFull xs st).2 := by
  induction xs generalizing st with
  | nil => simpa [scanFull]
  | cons c xs ih =>
    have hstep : ∀ st2 : ScanState,
        scanFull [c] st = ([], st2) → Reach st2 → Reach (scanFull xs st2).2 := by
      intro st2 _ h2; exact ih st2 h2
    -- one non-extracting step from a reachable state reaches the next state
    have hone : ∀ st2 : ScanState, scanFull [c] st = ([], st2) → Reach st2 := by
      intro st2 hc
      unfold Reach at h ⊢
      have hk : st2.kept = c :: st.kept := by
        revert hc
        simp only [scanFull]
        split_ifs <;> intro hc <;>
          first
            | (cases hc; simp [pushCh])
            | (simp [scanFull] at hc)
      rw [hk]
      simp only [List.reverse_cons]
      rw [scanFull_append, h]
      simpa using hc
    rw [show scanFull (c :: xs) st
          = ((scanFull [c] st).1 ++ (scanFull xs (scanFull [c] st).2).1,
             (scanFull xs (scanFull [c] st).2).2) from by
        simpa using scanFull_append [c] xs st]
    rcases he : scanFull [c] st with ⟨evs, st2⟩
    by_cases hevs : evs = []
    · subst hevs
      exact hstep st2 he (hone st2 he)
    · -- the single step extracted: the new state is `initScan`, reachable
      have hst2 : st2 = initScan := by
        revert he
        simp only [scanFull]
        split_ifs <;> intro he <;> (cases he; first | rfl | simp at hevs)
      rw [hst2]
      exact ih _ reach_init

/-! ### The pure depth/string/escape machine

For reasoning about segments scanned strictly inside a candidate object we
project the scanner to the `(braceCount, inString, escapeNext)` triple. -/

/-- One scanner step on the state triple (depth, inString, escapeNext). -/
def step1 (t : Int × Bool × Bool) (c : Char) : Int × Bool × Bool :=
  if t.2.2 then (t.1, t.2.1, false)
  else if c = bslash then (t.1, t.2.1, true)
  else if c = dquote then (t.1, !t.2.1, false)
  else if t.2.1 then t
  else if c = lbrace then (t.1 + 1, t.2.1, t.2.2)
  else if c = rbrace then (t.1 - 1, t.2.1, t.2.2)
  else t

/-- Running the triple machine over a segment. -/
def runT (cs : List Char) (t : Int × Bool × Bool) : Int × Bool × Bool :=
  cs.foldl step1 t

/-- `true` when no character of the segment triggers an extraction (a `}`
processed outside a string, unescaped, at depth one). -/
def noExt : List Char → Int × Bool × Bool → Bool
  | [], _ => true
  | c :: r, t =>
    (!(!t.2.2 && !t.2.1 && (c == rbrace) && (t.1 == 1))) && noExt r (step1 t c)

theorem runT_nil (t : Int × Bool × Bool) : runT [] t = t := rfl

theorem runT_cons (c : Char) (cs : List Char) (t : Int × Bool × Bool) :
    runT (c :: cs) t = runT cs (step1 t c) := rfl

theorem runT_append (xs ys : List Char) (t : Int × Bool × Bool) :
    runT (xs ++ ys) t = runT ys (runT xs t) := by
  simp [runT, List.foldl_append]

theorem noExt_append (xs ys : List Char) (t : Int × Bool × Bool) :
    noExt (xs ++ ys) t = (noExt xs t && noExt ys (runT xs t)) := by
  induction xs generalizing t with
  | nil => simp [noExt, runT]
  | cons c xs ih => simp [noExt, ih, runT_cons, Bool.and_assoc]

/-- Scanning a segment that starts at depth ≥ 1 and never extracts: no
events, every character goes to both the retained buffer and the span, and
the triple evolves by the triple machine. -/
theorem scanFull_noExt (cs : List Char) (st : ScanState) (hd : 1 ≤ st.depth)
    (hne : noExt cs (st.depth, st.inStr, st.esc) = true) :
    scanFull cs st =
      ([], ⟨cs.reverse ++ st.kept, cs.reverse ++ st.span,
            (runT cs (st.depth, st.inStr, st.esc)).1,
            (runT cs (st.depth, st.inStr, st.esc)).2.1,
            (runT cs (st.depth, st.inStr, st.esc)).2.2⟩) := by
  induction cs generalizing st with
  | nil => simp [scanFull, runT]
  | cons c cs ih =>
    simp only [noExt, Bool.and_eq_true, Bool.not_eq_true',
      Bool.and_eq_false_iff, beq_eq_false_iff_ne, ne_eq] at hne
    obtain ⟨hhead, htail⟩ := hne
    simp only [scanFull]
    split_ifs with h1 h2 h3 h4 h5 h5a h6 h6a
    · -- escapeNext: consume and clear
      rw [ih _ (by simpa [pushCh] using hd)
          (by simpa [pushCh, step1, h1] using htail)]
      simp [pushCh, step1, h1, hd, runT_cons, List.append_assoc]
    · -- backslash: set escapeNext
      rw [ih _ (by simpa [pushCh] using hd)
          (by simpa [pushCh, step1, h1, h2] using htail)]
      simp [pushCh, step1, h1, h2, hd, runT_cons, List.append_assoc]
    · -- quote: toggle inString
      rw [ih _ (by simpa [pushCh] using hd)
          (by simpa [pushCh, step1, h1, h2, h3] using htail)]
      simp [pushCh, step1, h1, h2, h3, hd, runT_cons, List.append_assoc]
    · -- inside string: plain character
      rw [ih _ (by simpa [pushCh] using hd)
          (by simpa [pushCh, step1, h1, h2, h3, h4] using htail)]
      simp [pushCh, step1, h1, h2, h3, h4, hd, runT_cons, List.append_assoc]
    · -- open brace at depth 0: impossible here
      omega
    · -- open brace at depth ≥ 1
      rw [ih _ (by simp [pushCh]; omega)
          (by simpa [pushCh, step1, h1, h2, h3, h4, h5] using htail)]
      simp [pushCh, step1, h1, h2, h3, h4, h5, hd, runT_cons, List.append_assoc]
    · -- close brace at depth 1: excluded by `noExt`
      exfalso
      rcases hhead with ((h | h) | h) | h
      · exact h1 (by simpa using h)
      · exact h4 (by simpa using h)
      · exact h h6
      · exact h h6a
    · -- close brace at depth ≥ 2
      rw [ih _ (by simp [pushCh]; omega)
          (by simpa [pushCh, step1, h1, h2, h3, h4, h5, h6] using htail)]
      simp [pushCh, step1, h1, h2, h3, h4, h5, h6, hd, runT_cons, List.append_assoc]
    · -- ordinary character outside strings
      rw [ih _ (by simpa [pushCh] using hd)
          (by simpa [pushCh, step1, h1, h2, h3, h4, h5, h6] using htail)]
      simp [pushCh, step1, h1, h2, h3, h4, h5, h6, hd, runT_cons, List.append_assoc]

/-! ### Tame segments: the interiors of rendered JSON objects -/

/-- A segment is tame when, started at any depth ≥ 1 outside a string, the
triple machine returns to the same state and never triggers an extraction.
The interior of every rendered JSON object is tame — in particular braces
inside quoted strings do not move the depth. -/
def Tame (cs : List Char) : Prop :=
  ∀ d : Int, 1 ≤ d →
    runT cs (d, false, false) = (d, false, false) ∧
    noExt cs (d, false, false) = true

/-- A character with no scanner meaning outside strings. -/
def PlainCh (c : Char) : Prop :=
  c ≠ bslash ∧ c ≠ dquote ∧ c ≠ lbrace ∧ c ≠ rbrace

instance : DecidablePred PlainCh := fun c => by
  unfold PlainCh
  infer_instance

theorem tame_nil : Tame [] := by intro d _; simp [runT, noExt]

theorem tame_append {xs ys : List Char} (hx : Tame xs) (hy : Tame ys) :
    Tame (xs ++ ys) := by
  intro d hd
  obtain ⟨hx1, hx2⟩ := hx d hd
  obtain ⟨hy1, hy2⟩ := hy d hd
  constructor
  · rw [runT_append, hx1, hy1]
  · rw [noExt_append, hx1, hx2, hy2]; rfl

theorem tame_plain {c : Char} (hc : PlainCh c) : Tame [c] := by
  obtain ⟨h1, h2, h3, h4⟩ := hc
  intro d hd
  constructor
  · simp [runT, step1, h1, h2, h3, h4]
  · simp [noExt, h4]

theorem tame_of_plain {cs : List Char} (h : ∀ c ∈ cs, PlainCh c) :
    Tame cs := by
  induction cs with
  | nil => exact tame_nil
  | cons c cs ih =>
    have : ([c] ++ cs) = c :: cs := rfl
    rw [← this]
    exact tame_append (tame_plain (h c (by simp)))
      (ih fun x hx => h x (by simp [hx]))

/-- A tame interior wrapped in braces is tame (nested objects). -/
theorem tame_block {cs : List Char} (h : Tame cs) :
    Tame (lbrace :: cs ++ [rbrace]) := by
  intro d hd
  have hstep : step1 (d, false, false) lbrace = (d + 1, false, false) := by
    simp [step1]
  have hcs := h (d + 1) (by omega)
  have hrb : step1 (d + 1, false, false) rbrace = (d, false, false) := by
    simp [step1]
  have hne1 : ((d + 1 : Int) == 1) = false := by
    simp only [beq_eq_false_iff_ne, ne_eq]
    omega
  constructor
  · rw [show lbrace :: cs ++ [rbrace] = lbrace :: (cs ++ [rbrace]) from by simp,
      runT_cons, hstep, runT_append, hcs.1]
    simp [runT, hrb]
  · rw [show lbrace :: cs ++ [rbrace] = lbrace :: (cs ++ [rbrace]) from by simp]
    simp only [noExt, hstep]
    rw [noExt_append, hcs.1, hcs.2]
    simp [noExt, hne1]

/-- Escaped string bodies leave the in-string machine state unchanged. -/
theorem escapeStr_seg (s : List Char) (d : Int) :
    runT (escapeStr s) (d, true, false) = (d, true, false) ∧
    noExt (escapeStr s) (d, true, false) = true := by
  induction s with
  | nil => simp [escapeStr, runT, noExt]
  | cons c s ih =>
    by_cases hc : c = dquote ∨ c = bslash
    · have heq : escapeStr (c :: s) = bslash :: c :: escapeStr s := by
        rw [escapeStr, if_pos hc]
      rw [heq]
      constructor
      · rw [runT_cons, runT_cons,
          show step1 (d, true, false) bslash = (d, true, true) from by simp [step1],
          show step1 (d, true, true) c = (d, true, false) from by simp [step1]]
        exact ih.1
      · simp only [noExt,
          show step1 (d, true, false) bslash = (d, true, true) from by simp [step1],
          show step1 (d, true, true) c = (d, true, false) from by simp [step1]]
        simp [ih.2]
    · have heq : escapeStr (c :: s) = c :: escapeStr s := by
        rw [escapeStr, if_neg hc]
      push_neg at hc
      rw [heq]
      constructor
      · rw [runT_cons,
          show step1 (d, true, false) c = (d, true, false) from by
            simp [step1, hc.1, hc.2]]
        exact ih.1
      · simp only [noExt,
          show step1 (d, true, false) c = (d, true, false) from by
            simp [step1, hc.1, hc.2]]
        simp [ih.2]

/-- A rendered string literal (key or value) is tame. -/
theorem tame_renderKey (s : List Char) : Tame (renderKey s) := by
  intro d hd
  have h1 : step1 (d, false, false) dquote = (d, true, false) := by simp [step1]
  have h2 : step1 (d, true, false) dquote = (d, false, false) := by simp [step1]
  have hseg := escapeStr_seg s d
  constructor
  · rw [renderKey, show dquote :: escapeStr s ++ [dquote]
        = dquote :: (escapeStr s ++ [dquote]) from by simp,
      runT_cons, h1, runT_append, hseg.1]
    simp [runT, h2]
  · rw [renderKey, show dquote :: escapeStr s ++ [dquote]
        = dquote :: (escapeStr s ++ [dquote]) from by simp]
    simp only [noExt, h1]
    rw [noExt_append, hseg.1, hseg.2]
    simp [noExt]

/-- Every character of a rendered positive number is a decimal digit. -/
theorem toBE_digits (n : Nat) : ∀ c ∈ toBE n, ∃ d : Nat, d < 10 ∧ c = Char.ofNat (48 + d) := by
  induction n using Nat.strong_induction_on with
  | _ n ih =>
    intro c hc
    rw [toBE] at hc
    by_cases h0 : n = 0
    · simp [h0] at hc
    · simp only [h0, dite_false] at hc
      rcases List.mem_append.mp hc with h | h
      · exact ih (n / 10) (Nat.div_lt_self (Nat.pos_of_ne_zero h0) (by omega)) c h
      · simp at h
        exact ⟨n % 10, Nat.mod_lt _ (by omega), h⟩

/-- Decimal digit characters are plain. -/
theorem plain_digit {d : Nat} (hd : d < 10) : PlainCh (Char.ofNat (48 + d)) := by
  interval_cases d <;> exact ⟨by decide, by decide, by decide, by decide⟩

/-- A rendered number is tame. -/
theorem tame_renderNum (n : Nat) : Tame (renderNum n) := by
  unfold renderNum
  split_ifs
  · exact tame_of_plain (by intro c hc; simp at hc; subst hc; exact plain_digit (d := 0) (by omega))
  · refine tame_of_plain fun c hc => ?_
    obtain ⟨d, hd, rfl⟩ := toBE_digits n c hc
    exact plain_digit hd

/-- Depth-`n` strong-induction bundle: every rendered value, member list and
element list is tame. -/
theorem tame_render_bundle : ∀ n : Nat,
    (∀ v : JVal, msize v ≤ n → Tame (render v)) ∧
    (∀ fs : JFields, msizeF fs ≤ n →
      Tame (renderFields fs) ∧ Tame (renderFieldsTail fs)) ∧
    (∀ es : JElems, msizeE es ≤ n →
      Tame (renderElems es) ∧ Tame (renderElemsTail es)) := by
  intro n
  induction n with
  | zero =>
    refine ⟨fun v hv => ?_, fun fs hfs => ?_, fun es hes => ?_⟩
    · exfalso; cases v <;> simp [msize] at hv
    · cases fs with
      | fnil => exact ⟨by simpa [renderFields] using tame_nil,
          by simpa [renderFieldsTail] using tame_nil⟩
      | fcons k v rest => exfalso; simp [msizeF] at hfs
    · cases es with
      | enil => exact ⟨by simpa [renderElems] using tame_nil,
          by simpa [renderElemsTail] using tame_nil⟩
      | econs v rest => exfalso; simp [msizeE] at hes
  | succ n ih =>
    obtain ⟨ihv, ihf, ihe⟩ := ih
    refine ⟨fun v hv => ?_, fun fs hfs => ?_, fun es hes => ?_⟩
    · cases v with
      | jnull =>
        exact tame_of_plain (by intro c hc; fin_cases hc <;>
          exact ⟨by decide, by decide, by decide, by decide⟩)
      | jbool b =>
        cases b <;>
          exact tame_of_plain (by intro c hc; fin_cases hc <;>
            exact ⟨by decide, by decide, by decide, by decide⟩)
      | jnum m => exact tame_renderNum m
      | jstr s => exact tame_renderKey s
      | jarr es =>
        have hes : msizeE es ≤ n := by simp [msize] at hv; omega
        have h1 : Tame (renderElems es) := (ihe es hes).1
        rw [show render (jarr es) = ['['] ++ renderElems es ++ [']'] from by
          simp [render]]
        exact tame_append (tame_append
          (tame_plain ⟨by decide, by decide, by decide, by decide⟩) h1)
          (tame_plain ⟨by decide, by decide, by decide, by decide⟩)
      | jobj fs =>
        have hfs : msizeF fs ≤ n := by simp [msize] at hv; omega
        rw [show render (jobj fs) = lbrace :: renderFields fs ++ [rbrace] from by
          simp [render]]
        exact tame_block (ihf fs hfs).1
    · cases fs with
      | fnil => exact ⟨by simpa [renderFields] using tame_nil,
          by simpa [renderFieldsTail] using tame_nil⟩
      | fcons k v rest =>
        have hv : msize v ≤ n := by simp [msizeF] at hfs; omega
        have hrest : msizeF rest ≤ n := by simp [msizeF] at hfs; omega
        have hmem : Tame (renderKey k ++ ':' :: render v ++ renderFieldsTail rest) := by
          rw [show (renderKey k ++ ':' :: render v ++ renderFieldsTail rest)
              = renderKey k ++ ([':'] ++ (render v ++ renderFieldsTail rest)) from by simp]
          exact tame_append (tame_renderKey k)
            (tame_append (tame_plain ⟨by decide, by decide, by decide, by decide⟩)
              (tame_append (ihv v hv) (ihf rest hrest).2))
        refine ⟨by simpa [renderFields] using hmem, ?_⟩
        rw [show renderFieldsTail (fcons k v rest)
            = [','] ++ (renderKey k ++ ':' :: render v ++ renderFieldsTail rest) from by
          simp [renderFieldsTail]]
        exact tame_append (tame_plain ⟨by decide, by decide, by decide, by decide⟩) hmem
    · cases es with
      | enil => exact ⟨by simpa [renderElems] using tame_nil,
          by simpa [renderElemsTail] using tame_nil⟩
      | econs v rest =>
        have hv : msize v ≤ n := by simp [msizeE] at hes; omega
        have hrest : msizeE rest ≤ n := by simp [msizeE] at hes; omega
        have hmem : Tame (render v ++ renderElemsTail rest) :=
          tame_append (ihv v hv) (ihe rest hrest).2
        refine ⟨by simpa [renderElems] using hmem, ?_⟩
        rw [show renderElemsTail (econs v rest)
            = [','] ++ (render v ++ renderElemsTail rest) from by
          simp [renderElemsTail]]
        exact tame_append (tame_plain ⟨by decide, by decide, by decide, by decide⟩) hmem

/-- The member list of any rendered object is tame. -/
theorem tame_renderFields (fs : JFields) : Tame (renderFields fs) :=
  ((tame_render_bundle (msizeF fs)).2.1 fs le_rfl).1

/-! ### Extraction of rendered objects from a stream -/

/-- Plain characters at depth zero are retained but produce nothing. -/
theorem scanFull_plain0 (sep rest : List Char) (k sp : List Char)
    (hsep : ∀ c ∈ sep, PlainCh c) :
    scanFull (sep ++ rest) ⟨k, sp, 0, false, false⟩ =
      scanFull rest ⟨sep.reverse ++ k, sp, 0, false, false⟩ := by
  induction sep generalizing k with
  | nil => simp
  | cons c sep ih =>
    obtain ⟨h1, h2, h3, h4⟩ := hsep c (by simp)
    have hstep : scanFull ((c :: sep) ++ rest) ⟨k, sp, 0, false, false⟩
        = scanFull (sep ++ rest) ⟨c :: k, sp, 0, false, false⟩ := by
      rw [List.cons_append, scanFull]
      simp [pushCh, h1, h2, h3, h4, show ¬((1 : Int) ≤ 0) from by decide]
    rw [hstep, ih _ (fun x hx => hsep x (by simp [hx]))]
    simp

/-- Scanning a rendered object at depth zero extracts exactly that object
and restarts from the initial state. -/
theorem scanFull_obj (mid rest : List Char) (k sp : List Char)
    (hmid : Tame mid) :
    scanFull ((lbrace :: mid ++ [rbrace]) ++ rest) ⟨k, sp, 0, false, false⟩ =
      ((lbrace :: mid ++ [rbrace]) :: (scanFull rest initScan).1,
        (scanFull rest initScan).2) := by
  obtain ⟨hrun, hnx⟩ := hmid 1 le_rfl
  have h1 : scanFull ((lbrace :: mid ++ [rbrace]) ++ rest) ⟨k, sp, 0, false, false⟩
      = scanFull ((mid ++ [rbrace]) ++ rest) ⟨lbrace :: k, [lbrace], 1, false, false⟩ := by
    rw [show (lbrace :: mid ++ [rbrace]) ++ rest
        = lbrace :: ((mid ++ [rbrace]) ++ rest) from by simp]
    rw [scanFull]
    simp
  rw [h1, show (mid ++ [rbrace]) ++ rest = mid ++ (rbrace :: rest) from by simp,
    scanFull_append]
  rw [scanFull_noExt mid ⟨lbrace :: k, [lbrace], 1, false, false⟩ (by simp) (by simpa using hnx)]
  simp only [hrun]
  rw [scanFull]
  simp

/-- A whitespace-or-garbage-interleaved sequence of rendered objects:
`sep₀ obj₁ sep₁ obj₂ … obj_N sep_N`. -/
def chainStr : List (List Char × JFields) → List Char → List Char
  | [], t => t
  | p :: rest, t => p.1 ++ render (jobj p.2) ++ chainStr rest t

/-- Scanning a full chain extracts exactly the rendered objects, in order,
leaving the trailing separator in the buffer. -/
theorem scanFull_chain (L : List (List Char × JFields)) (t : List Char)
    (hL : ∀ p ∈ L, ∀ c ∈ p.1, PlainCh c) (ht : ∀ c ∈ t, PlainCh c) :
    scanFull (chainStr L t) initScan =
      (L.map fun p => render (jobj p.2),
        ⟨t.reverse, [], 0, false, false⟩) := by
  induction L with
  | nil =>
    rw [chainStr, show t = t ++ [] from by simp, show initScan = ⟨[], [], 0, false, false⟩ from rfl,
      scanFull_plain0 t [] [] [] ht]
    simp [scanFull]
  | cons p L ih =>
    rw [chainStr, show initScan = ⟨[], [], 0, false, false⟩ from rfl, List.append_assoc,
      scanFull_plain0 p.1 _ [] [] (hL p (by simp))]
    rw [show render (jobj p.2) = lbrace :: renderFields p.2 ++ [rbrace] from by
      simp [render]]
    rw [scanFull_obj _ _ _ _ (tame_renderFields p.2)]
    rw [ih (fun q hq => hL q (by simp [hq]))]
    simp [render]

/-! ### Chunk-boundary invariance of the incremental parser -/

/-- Feeding chunks one at a time from a reachable buffer state equals one
scan of the concatenation: the rescan-from-scratch that `parseEvents` does
on every call loses nothing. -/
theorem feedAll_reach (ds : List (List Char)) (st : ScanState) (h : Reach st) :
    feedAll ds st.kept.reverse =
      ((scanFull ds.join st).1.filterMap parseEventFn,
        (scanFull ds.join st).2.kept.reverse) := by
  induction ds generalizing st with
  | nil => simp [feedAll, scanFull]
  | cons d ds ih =>
    have hfeed : feedOne st.kept.reverse d =
        ((scanFull d st).1.filterMap parseEventFn, (scanFull d st).2.kept.reverse) := by
      unfold feedOne scanTop
      rw [scanFull_append, h]
      simp
    rw [feedAll, hfeed, ih (scanFull d st).2 (reach_scanFull d st h)]
    rw [show (d :: ds).join = d ++ ds.join from rfl, scanFull_append]
    simp

/-- Chunk-boundary invariance: any chunking of a byte stream produces the
same events and the same final buffer as feeding the stream at once. -/
theorem feedAll_join (ds : List (List Char)) :
    feedAll ds [] = feedOne [] ds.join := by
  have h := feedAll_reach ds initScan reach_init
  simp only [initScan] at h
  simpa [feedOne, scanTop] using h

/-! ### Round trip: the parser recovers rendered values -/

theorem skipWs_cons_of {c : Char} (h : isWsCh c = false) (xs : List Char) :
    skipWs (c :: xs) = c :: xs := by
  simp [skipWs, List.dropWhile_cons, h]

/-- The body parser undoes `escapeStr`. -/
theorem parseStringBody_escape (s rest : List Char) :
    parseStringBody (escapeStr s ++ dquote :: rest) = some (s, rest) := by
  induction s with
  | nil =>
    show parseStringBody (dquote :: rest) = some ([], rest)
    unfold parseStringBody
    simp
  | cons c s ih =>
    by_cases hc : c = dquote ∨ c = bslash
    · rw [escapeStr, if_pos hc,
        show (bslash :: c :: escapeStr s) ++ dquote :: rest
          = bslash :: c :: (escapeStr s ++ dquote :: rest) from by simp]
      unfold parseStringBody
      simp [hc, ih]
    · rw [escapeStr, if_neg hc,
        show (c :: escapeStr s) ++ dquote :: rest
          = c :: (escapeStr s ++ dquote :: rest) from by simp]
      push_neg at hc
      unfold parseStringBody
      simp [hc.1, hc.2, ih]

/-- Every character of `toBE` is a decimal digit character. -/
theorem toBE_all_digits (n : Nat) : ∀ c ∈ toBE n, isDigitCh c = true := by
  intro c hc
  obtain ⟨d, hd, rfl⟩ := toBE_digits n c hc
  interval_cases d <;> decide

theorem char_ofNat_digit_toNat {d : Nat} (hd : d < 10) :
    (Char.ofNat (48 + d)).toNat = 48 + d := by
  interval_cases d <;> decide

/-- `toBE` is nonempty on positive numbers. -/
theorem toBE_ne_nil {n : Nat} (h : n ≠ 0) : toBE n ≠ [] := by
  rw [toBE]
  simp [h]

/-- The digit fold inverts `toBE`. -/
theorem digitsVal_toBE (n : Nat) : digitsVal (toBE n) = n := by
  induction n using Nat.strong_induction_on with
  | _ n ih =>
    by_cases h0 : n = 0
    · subst h0; simp [toBE, digitsVal]
    · rw [toBE]
      simp only [h0, dite_false]
      unfold digitsVal
      rw [List.foldl_append]
      have hrec := ih (n / 10) (Nat.div_lt_self (Nat.pos_of_ne_zero h0) (by omega))
      unfold digitsVal at hrec
      simp only [List.foldl_cons, List.foldl_nil, hrec,
        char_ofNat_digit_toNat (Nat.mod_lt n (show 0 < 10 from by omega))]
      omega

/-- All characters of a rendered number are digits. -/
theorem renderNum_all_digits (n : Nat) : ∀ c ∈ renderNum n, isDigitCh c = true := by
  intro c hc
  unfold renderNum at hc
  split_ifs at hc
  · simp at hc; subst hc; decide
  · exact toBE_all_digits n c hc

theorem renderNum_ne_nil (n : Nat) : renderNum n ≠ [] := by
  unfold renderNum
  split_ifs with h
  · simp
  · exact toBE_ne_nil h

/-- Splitting `takeWhile`/`dropWhile` at a boundary where the predicate
flips. -/
theorem takeWhile_append_of {p : Char → Bool} (xs ys : List Char)
    (hxs : ∀ c ∈ xs, p c = true) (hys : ∀ c, ys.head? = some c → p c = false) :
    (xs ++ ys).takeWhile p = xs ∧ (xs ++ ys).dropWhile p = ys := by
  induction xs with
  | nil =>
    cases ys with
    | nil => simp
    | cons c ys => simp [List.takeWhile_cons, List.dropWhile_cons, hys c rfl]
  | cons c xs ih =>
    have hc := hxs c (by simp)
    have hr := ih (fun x hx => hxs x (by simp [hx])) 
    simp [List.takeWhile_cons, List.dropWhile_cons, hc, hr.1, hr.2]

/-- Rest lists whose head cannot be mistaken for more digits. -/
def DelimOk : List Char → Prop
  | [] => True
  | c :: _ => isDigitCh c = false

/-- `parseNum` undoes `renderNum` up to a non-digit delimiter. -/
theorem parseNum_renderNum (n : Nat) (rest : List Char) (hrest : DelimOk rest) :
    parseNum (renderNum n ++ rest) = some (n, rest) := by
  have hsplit := takeWhile_append_of (p := isDigitCh) (renderNum n) rest
    (renderNum_all_digits n)
    (by
      intro c hcc
      cases rest with
      | nil => exact Option.noConfusion (List.head?_nil ▸ hcc)
      | cons d ds =>
        rw [List.head?_cons, Option.some.injEq] at hcc
        subst hcc
        exact hrest)
  unfold parseNum
  rw [hsplit.1, hsplit.2]
  have hne : (renderNum n).isEmpty = false := by
    cases hh : renderNum n with
    | nil => exact absurd hh (renderNum_ne_nil n)
    | cons a b => simp
  simp only [hne, Bool.false_eq_true, if_false]
  have hval : digitsVal (renderNum n) = n := by
    unfold renderNum
    split_ifs with h
    · subst h; decide
    · exact digitsVal_toBE n
  rw [hval]

/-- Dispatch facts about digit heads. -/
theorem digit_head_facts {c : Char} (h : isDigitCh c = true) :
    c ≠ dquote ∧ c ≠ lbrace ∧ c ≠ '[' ∧ c ≠ 't' ∧ c ≠ 'f' ∧ c ≠ 'n' ∧
      isWsCh c = false := by
  simp only [isDigitCh, Bool.and_eq_true, decide_eq_true_eq] at h
  refine ⟨?_, ?_, ?_, ?_, ?_, ?_, ?_⟩
  · intro hq; subst hq; revert h; decide
  · intro hq; subst hq; revert h; decide
  · intro hq; subst hq; revert h; decide
  · intro hq; subst hq; revert h; decide
  · intro hq; subst hq; revert h; decide
  · intro hq; subst hq; revert h; decide
  · simp only [isWsCh, Bool.or_eq_false_iff, beq_eq_false_iff_ne, ne_eq]
    omega

/-- Every rendered value is nonempty and starts with a character that is
not whitespace and not a closing delimiter. -/
theorem render_head (v : JVal) : ∃ c cs, render v = c :: cs ∧
    isWsCh c = false ∧ c ≠ ']' ∧ c ≠ rbrace ∧ c ≠ ',' := by
  cases v with
  | jnull => exact ⟨'n', _, rfl, by decide, by decide, by decide, by decide⟩
  | jbool b =>
    cases b with
    | true => exact ⟨'t', _, rfl, by decide, by decide, by decide, by decide⟩
    | false => exact ⟨'f', _, rfl, by decide, by decide, by decide, by decide⟩
  | jnum n =>
    cases hrn : renderNum n with
    | nil => exact absurd hrn (renderNum_ne_nil n)
    | cons c cs =>
      have hcd : isDigitCh c = true := renderNum_all_digits n c (by rw [hrn]; simp)
      simp only [isDigitCh, Bool.and_eq_true, decide_eq_true_eq] at hcd
      refine ⟨c, cs, by simp [render, hrn], ?_, ?_, ?_, ?_⟩
      · simp only [isWsCh, Bool.or_eq_false_iff, beq_eq_false_iff_ne, ne_eq]
        omega
      · intro hq; subst hq; revert hcd; decide
      · intro hq; subst hq; revert hcd; decide
      · intro hq; subst hq; revert hcd; decide
  | jstr s =>
    exact ⟨dquote, escapeStr s ++ [dquote], by simp [render, renderKey],
      by decide, by decide, by decide, by decide⟩
  | jarr es => exact ⟨'[', _, rfl, by decide, by decide, by decide, by decide⟩
  | jobj fs => exact ⟨lbrace, _, rfl, by decide, by decide, by decide, by decide⟩

/-- Fuel-indexed round-trip bundle: with fuel at least the measure of the
value, the parser inverts the renderer, leaving the delimiter rest. -/
theorem parse_render_bundle : ∀ f : Nat,
    (∀ (v : JVal) (rest : List Char), msize v ≤ f → DelimOk rest →
      parseVal f (render v ++ rest) = some (v, rest)) ∧
    (∀ (k : List Char) (v : JVal) (fs : JFields) (rest : List Char),
      msizeF (fcons k v fs) ≤ f →
      parseMembers f (renderFields (fcons k v fs) ++ rbrace :: rest)
        = some (fcons k v fs, rest)) ∧
    (∀ (v : JVal) (es : JElems) (rest : List Char),
      msizeE (econs v es) ≤ f →
      parseElems f (renderElems (econs v es) ++ ']' :: rest)
        = some (econs v es, rest)) := by
  intro f
  induction f with
  | zero =>
    refine ⟨fun v rest hv _ => absurd hv ?_, fun k v fs rest h => absurd h ?_,
      fun v es rest h => absurd h ?_⟩
    · cases v <;> simp [msize]
    · simp [msizeF]
    · simp [msizeE]
  | succ f ih =>
    obtain ⟨ihv, ihm, ihe⟩ := ih
    refine ⟨fun v rest hv hdel => ?_, fun k v fs rest h => ?_,
      fun v es rest h => ?_⟩
    · cases v with
      | jnull =>
        rw [show render jnull ++ rest = 'n' :: ('u' :: 'l' :: 'l' :: rest) from by
          simp [render]]
        simp only [parseVal]
        rw [skipWs_cons_of (by decide)]
        simp +decide [chompLit]
      | jbool b =>
        cases b with
        | true =>
          rw [show render (jbool true) ++ rest = 't' :: ('r' :: 'u' :: 'e' :: rest) from by
            simp [render]]
          simp only [parseVal]
          rw [skipWs_cons_of (by decide)]
          simp +decide [chompLit]
        | false =>
          rw [show render (jbool false) ++ rest
              = 'f' :: ('a' :: 'l' :: 's' :: 'e' :: rest) from by simp [render]]
          simp only [parseVal]
          rw [skipWs_cons_of (by decide)]
          simp +decide [chompLit]
      | jnum n =>
        rw [show render (jnum n) ++ rest = renderNum n ++ rest from by simp [render]]
        cases hrn : renderNum n with
        | nil => exact absurd hrn (renderNum_ne_nil n)
        | cons c cs =>
          have hcd : isDigitCh c = true := renderNum_all_digits n c (by rw [hrn]; simp)
          obtain ⟨h1, h2, h3, h4, h5, h6, h7⟩ := digit_head_facts hcd
          have hpn : parseNum (c :: (cs ++ rest)) = some (n, rest) := by
            rw [show c :: (cs ++ rest) = renderNum n ++ rest from by rw [hrn]; simp]
            exact parseNum_renderNum n rest hdel
          rw [show (c :: cs) ++ rest = c :: (cs ++ rest) from by simp]
          simp only [parseVal]
          rw [skipWs_cons_of h7]
          simp only [if_neg h1, if_neg h2, if_neg h3, if_neg h4, if_neg h5,
            if_neg h6, hcd, if_true, hpn]
      | jstr s =>
        rw [show render (jstr s) ++ rest = dquote :: (escapeStr s ++ dquote :: rest) from by
          simp [render, renderKey]]
        simp only [parseVal]
        rw [skipWs_cons_of (by decide)]
        simp [parseStringBody_escape]
      | jarr es =>
        cases es with
        | enil =>
          rw [show render (jarr enil) ++ rest = '[' :: (']' :: rest) from by
            simp [render, renderElems]]
          simp +decide [parseVal, skipWs, List.dropWhile_cons]
        | econs v es2 =>
          have hm : msizeE (econs v es2) ≤ f := by
            simp only [msize, msizeE] at hv ⊢
            omega
          have hrec := ihe v es2 rest hm
          obtain ⟨c, cs, hcc, hws, hrb2, _, _⟩ := render_head v
          rw [show render (jarr (econs v es2)) ++ rest
              = '[' :: (renderElems (econs v es2) ++ ']' :: rest) from by
            simp [render]]
          simp only [parseVal]
          rw [skipWs_cons_of (by decide)]
          simp only [if_neg (show ('[' : Char) ≠ dquote from by decide),
            if_neg (show ('[' : Char) ≠ lbrace from by decide), if_pos rfl]
          rw [show renderElems (econs v es2) ++ ']' :: rest
              = c :: (cs ++ (renderElemsTail es2 ++ ']' :: rest)) from by
            simp [renderElems, hcc]]
          rw [skipWs_cons_of hws]
          simp only [if_neg hrb2]
          rw [show c :: (cs ++ (renderElemsTail es2 ++ ']' :: rest))
              = renderElems (econs v es2) ++ ']' :: rest from by
            simp [renderElems, hcc]]
          simp [hrec]
      | jobj fs =>
        cases fs with
        | fnil =>
          rw [show render (jobj fnil) ++ rest = lbrace :: (rbrace :: rest) from by
            simp [render, renderFields]]
          simp +decide [parseVal, skipWs, List.dropWhile_cons]
        | fcons k v fs2 =>
          have hm : msizeF (fcons k v fs2) ≤ f := by
            simp only [msize] at hv
            omega
          have hrec := ihm k v fs2 rest hm
          rw [show render (jobj (fcons k v fs2)) ++ rest
              = lbrace :: (renderFields (fcons k v fs2) ++ rbrace :: rest) from by
            simp [render]]
          simp only [parseVal]
          rw [skipWs_cons_of (by decide)]
          simp only [if_neg lbrace_ne_dquote, if_pos rfl]
          rw [show renderFields (fcons k v fs2) ++ rbrace :: rest
              = dquote :: (escapeStr k ++ dquote :: (':' :: (render v
                  ++ (renderFieldsTail fs2 ++ rbrace :: rest)))) from by
            simp [renderFields, renderKey]]
          rw [skipWs_cons_of (by decide)]
          simp only [if_neg dquote_ne_rbrace]
          rw [show dquote :: (escapeStr k ++ dquote :: (':' :: (render v
                  ++ (renderFieldsTail fs2 ++ rbrace :: rest))))
              = renderFields (fcons k v fs2) ++ rbrace :: rest from by
            simp [renderFields, renderKey]]
          simp [hrec]
    · -- member lists
      have hv : msize v ≤ f := by simp only [msizeF] at h; omega
      have hdel2 : DelimOk (renderFieldsTail fs ++ rbrace :: rest) := by
        cases fs with
        | fnil => simp [renderFieldsTail, DelimOk]; decide
        | fcons k2 v2 fs2 => simp [renderFieldsTail, DelimOk]; decide
      have hval := ihv v (renderFieldsTail fs ++ rbrace :: rest) hv hdel2
      rw [show renderFields (fcons k v fs) ++ rbrace :: rest
          = dquote :: (escapeStr k ++ dquote :: (':' :: (render v
              ++ (renderFieldsTail fs ++ rbrace :: rest)))) from by
        simp [renderFields, renderKey]]
      simp only [parseMembers]
      rw [skipWs_cons_of (by decide)]
      simp only [if_pos rfl, parseStringBody_escape]
      rw [skipWs_cons_of (by decide)]
      simp only [if_pos rfl, hval]
      cases fs with
      | fnil =>
        rw [show renderFieldsTail fnil ++ rbrace :: rest = rbrace :: rest from by
          simp [renderFieldsTail]]
        rw [skipWs_cons_of (c := rbrace) (by decide)]
        simp +decide
      | fcons k2 v2 fs2 =>
        have hm2 : msizeF (fcons k2 v2 fs2) ≤ f := by
          simp only [msizeF] at h ⊢
          omega
        have hrec := ihm k2 v2 fs2 rest hm2
        rw [show renderFieldsTail (fcons k2 v2 fs2) ++ rbrace :: rest
            = ',' :: (renderFields (fcons k2 v2 fs2) ++ rbrace :: rest) from by
          simp [renderFieldsTail, renderFields]]
        rw [skipWs_cons_of (c := ',') (by decide)]
        simp +decide [hrec]
    · -- element lists
      have hv : msize v ≤ f := by simp only [msizeE] at h; omega
      have hdel2 : DelimOk (renderElemsTail es ++ ']' :: rest) := by
        cases es with
        | enil => simp [renderElemsTail, DelimOk]; decide
        | econs v2 es2 => simp [renderElemsTail, DelimOk]; decide
      have hval := ihv v (renderElemsTail es ++ ']' :: rest) hv hdel2
      rw [show renderElems (econs v es) ++ ']' :: rest
          = render v ++ (renderElemsTail es ++ ']' :: rest) from by
        simp [renderElems]]
      simp only [parseElems, hval]
      cases es with
      | enil =>
        rw [show renderElemsTail enil ++ ']' :: rest = ']' :: rest from by
          simp [renderElemsTail]]
        rw [skipWs_cons_of (c := ']') (by decide)]
        simp +decide
      | econs v2 es2 =>
        have hm2 : msizeE (econs v2 es2) ≤ f := by
          simp only [msizeE] at h ⊢
          omega
        have hrec := ihe v2 es2 rest hm2
        rw [show renderElemsTail (econs v2 es2) ++ ']' :: rest
            = ',' :: (renderElems (econs v2 es2) ++ ']' :: rest) from by
          simp [renderElemsTail, renderElems]]
        rw [skipWs_cons_of (c := ',') (by decide)]
        simp +decide [hrec]

/-- The parser fuel measure is bounded by the rendered length. -/
theorem msize_le_render_bundle : ∀ n : Nat,
    (∀ v : JVal, msize v ≤ n → msize v ≤ (render v).length) ∧
    (∀ fs : JFields, msizeF fs ≤ n →
      msizeF fs ≤ (renderFields fs).length + 1 ∧
      msizeF fs ≤ (renderFieldsTail fs).length) ∧
    (∀ es : JElems, msizeE es ≤ n →
      msizeE es ≤ (renderElems es).length + 1 ∧
      msizeE es ≤ (renderElemsTail es).length) := by
  intro n
  induction n with
  | zero =>
    refine ⟨fun v hv => absurd hv ?_, fun fs hfs => ?_, fun es hes => ?_⟩
    · cases v <;> simp [msize]
    · cases fs with
      | fnil => simp [msizeF]
      | fcons k v rest => exact absurd hfs (by simp [msizeF])
    · cases es with
      | enil => simp [msizeE]
      | econs v rest => exact absurd hes (by simp [msizeE])
  | succ n ih =>
    obtain ⟨ihv, ihf, ihe⟩ := ih
    refine ⟨fun v hv => ?_, fun fs hfs => ?_, fun es hes => ?_⟩
    · cases v with
      | jnull => simp [msize, render]
      | jbool b => cases b <;> simp [msize, render]
      | jnum m =>
        have := renderNum_ne_nil m
        have hlen : 1 ≤ (renderNum m).length := by
          cases hh : renderNum m with
          | nil => exact absurd hh this
          | cons a b => simp
        simpa [msize, render] using hlen
      | jstr s => simp [msize, render, renderKey]
      | jarr es =>
        have h1 := ihe es (by simp [msize] at hv; omega)
        simp only [msize, render, List.length_cons, List.length_append]
        omega
      | jobj fs =>
        have h1 := ihf fs (by simp [msize] at hv; omega)
        simp only [msize, render, List.length_cons, List.length_append]
        omega
    · cases fs with
      | fnil => simp [msizeF, renderFields, renderFieldsTail]
      | fcons k v rest =>
        have hv2 : msize v ≤ n := by simp [msizeF] at hfs; omega
        have hr2 : msizeF rest ≤ n := by simp [msizeF] at hfs; omega
        have h1 := ihv v hv2
        have h2 := ihf rest hr2
        constructor <;>
          (simp only [msizeF, renderFields, renderFieldsTail, renderKey,
            List.length_append, List.length_cons]; omega)
    · cases es with
      | enil => simp [msizeE, renderElems, renderElemsTail]
      | econs v rest =>
        have hv2 : msize v ≤ n := by simp [msizeE] at hes; omega
        have hr2 : msizeE rest ≤ n := by simp [msizeE] at hes; omega
        have h1 := ihv v hv2
        have h2 := ihe rest hr2
        constructor <;>
          (simp only [msizeE, renderElems, renderElemsTail,
            List.length_append, List.length_cons]; omega)

/-- `JSON.parse` recovers every rendered value. -/
theorem jsonParse_render (v : JVal) : jsonParse (render v) = some v := by
  have hm : msize v ≤ (render v).length :=
    (msize_le_render_bundle (msize v)).1 v le_rfl
  have h := (parse_render_bundle ((render v).length + 1)).1 v []
    (by omega) (by simp [DelimOk])
  unfold jsonParse
  rw [show render v ++ [] = render v from by simp] at h
  rw [h]
  simp [skipWs]

/-- Rendered objects are already trimmed. -/
theorem trimChars_render_obj (fs : JFields) :
    trimChars (render (jobj fs)) = render (jobj fs) := by
  rw [show render (jobj fs) = lbrace :: (renderFields fs ++ [rbrace]) from by
    simp [render]]
  unfold trimChars
  rw [List.dropWhile_cons, if_neg (by decide : ¬(isWsCh lbrace = true))]
  rw [show (lbrace :: (renderFields fs ++ [rbrace])).reverse
      = rbrace :: ((renderFields fs).reverse ++ [lbrace]) from by simp]
  rw [List.dropWhile_cons, if_neg (by decide : ¬(isWsCh rbrace = true))]
  simp

/-- `parseEvent` on a rendered object succeeds and classifies it. -/
theorem parseEventFn_render (fs : JFields) :
    parseEventFn (render (jobj fs)) = some (classify (jobj fs)) := by
  unfold parseEventFn
  rw [trimChars_render_obj]
  have hne : (render (jobj fs)).isEmpty = false := by
    rw [show render (jobj fs) = lbrace :: (renderFields fs ++ [rbrace]) from by
      simp [render]]
    simp
  simp only [hne, Bool.false_eq_true, if_false, jsonParse_render]

/-! ### Well-formedness of protocol values

The JSON grammar requires control characters inside string literals to be
escaped; `render` leaves them raw, so a value is well formed exactly when
its strings (keys and values) contain no character below `0x20`.  On such
values `render` produces well-formed JSON text accepted by `JSON.parse`. -/

mutual

/-- Strings of the value contain no raw control characters. -/
def wfJ : JVal → Bool
  | jnull | jbool _ | jnum _ => true
  | jstr s => s.all fun c => 32 ≤ c.toNat
  | jarr es => wfE es
  | jobj fs => wfF fs

/-- Well-formedness of a member list. -/
def wfF : JFields → Bool
  | fnil => true
  | fcons k v rest => (k.all fun c => 32 ≤ c.toNat) && wfJ v && wfF rest

/-- Well-formedness of an element list. -/
def wfE : JElems → Bool
  | enil => true
  | econs v rest => wfJ v && wfE rest

end

/-- Mapping then filter-mapping with a pointwise-total function. -/
theorem filterMap_map_some {α β γ : Type} (l : List α) (f : α → β)
    (g : β → Option γ) (h : α → γ) (hp : ∀ a ∈ l, g (f a) = some (h a)) :
    (l.map f).filterMap g = l.map h := by
  induction l with
  | nil => simp
  | cons a l ih =>
    simp only [List.map_cons, List.filterMap_cons, hp a (by simp)]
    rw [ih fun x hx => hp x (by simp [hx])]

/-- C1. For every finite sequence of string chunks whose concatenation is a
separator-interleaved sequence of N well-formed JSON objects, feeding the
chunks one at a time to one parser instance (`feedAll`, the model of
repeated `parseEvents` calls) yields exactly the N events, classified and
in order, independent of the chunk boundaries; the trailing incomplete
material stays in the buffer. -/
theorem c1_chunked_stream (L : List (List Char × JFields)) (t : List Char)
    (chunks : List (List Char))
    (hjoin : chunks.join = chainStr L t)
    (hsep : ∀ p ∈ L, ∀ c ∈ p.1, PlainCh c)
    (hwf : ∀ p ∈ L, wfF p.2 = true)
    (ht : ∀ c ∈ t, PlainCh c) :
    feedAll chunks [] = (L.map (fun p => classify (jobj p.2)), t) := by
  rw [feedAll_join, hjoin]
  unfold feedOne scanTop
  simp only [List.nil_append]
  rw [scanFull_chain L t hsep ht]
  simp only
  rw [filterMap_map_some L (fun p => render (jobj p.2)) parseEventFn
    (fun p => classify (jobj p.2)) (fun p _ => parseEventFn_render p.2)]
  simp

/-- First object of the C1 witness stream: an `info` event. -/
def c1fs1 : JFields := fcons "type".data (jstr "info".data) fnil

/-- Second object of the C1 witness stream: a system-description payload. -/
def c1fs2 : JFields :=
  fcons "os_name".data (jstr "linux".data)
    (fcons "os_version".data (jstr "6.1".data)
      (fcons "architecture".data (jstr "x86_64".data) fnil))

/-- The C1 witness stream and its two chunks, cut in the middle of the
first object. -/
def c1stream : List Char := chainStr [([], c1fs1), (['\n'], c1fs2)] ['\n']

theorem c1_chunked_stream_witness :
    feedAll [c1stream.take 9, c1stream.drop 9] []
      = ([([], c1fs1), (['\n'], c1fs2)].map (fun p => classify (jobj p.2)), ['\n']) ∧
    feedAll [c1stream.take 9] [] = ([], c1stream.take 9) :=
  ⟨c1_chunked_stream [([], c1fs1), (['\n'], c1fs2)] ['\n']
      [c1stream.take 9, c1stream.drop 9]
      (by simp [c1stream]) (by decide) (by decide) (by decide),
    by rfl⟩

/-- C7. A `{` or `}` inside a quoted string (with no pending escape) leaves
the scanner state — in particular the brace depth — unchanged, so an object
whose string field contains braces is still extracted at its correct
boundary and parses back to the original object. -/
theorem c7_braces_in_strings :
    (∀ (d : Int) (c : Char), (c = lbrace ∨ c = rbrace) →
      step1 (d, true, false) c = (d, true, false)) ∧
    (∀ fs : JFields, wfF fs = true →
      feedOne [] (render (jobj fs)) = ([classify (jobj fs)], [])) := by
  constructor
  · rintro d c (rfl | rfl) <;> simp [step1]
  · intro fs _
    unfold feedOne scanTop
    simp only [List.nil_append]
    rw [show render (jobj fs) = (lbrace :: renderFields fs ++ [rbrace]) ++ [] from by
      simp [render]]
    rw [show initScan = (⟨[], [], 0, false, false⟩ : ScanState) from rfl]
    rw [scanFull_obj _ _ _ _ (tame_renderFields fs)]
    have hp : parseEventFn (lbrace :: (renderFields fs ++ [rbrace]))
        = some (classify (jobj fs)) := by
      rw [show lbrace :: (renderFields fs ++ [rbrace]) = render (jobj fs) from by
        simp [render]]
      exact parseEventFn_render fs
    simp [scanFull, initScan, List.filterMap_cons, hp]

/-- C7 witness object: its `message` string contains `{` and `}`. -/
def c7fs : JFields :=
  fcons "type".data (jstr "info".data)
    (fcons "message".data (jstr ['a', lbrace, 'b', rbrace, 'c']) fnil)

theorem c7_braces_in_strings_witness :
    step1 (3, true, false) lbrace = (3, true, false) ∧
    feedOne [] (render (jobj c7fs)) = ([classify (jobj c7fs)], []) :=
  ⟨c7_braces_in_strings.1 3 lbrace (Or.inl rfl),
    c7_braces_in_strings.2 c7fs (by decide)⟩

/-- C8. A candidate span that the scanner extracts but that fails to parse
as JSON is discarded: it yields no event, raises nothing, and the events of
the rest of the buffer and of all subsequent chunks are still produced. -/
theorem c8_malformed_span_skipped (fs1 fs2 : JFields) (mid : List Char)
    (hmid : Tame mid)
    (hbad : parseEventFn (lbrace :: mid ++ [rbrace]) = none)
    (hwf1 : wfF fs1 = true) (hwf2 : wfF fs2 = true) :
    feedAll [render (jobj fs1) ++ (lbrace :: mid ++ [rbrace]),
        render (jobj fs2)] []
      = ([classify (jobj fs1), classify (jobj fs2)], []) := by
  rw [feedAll_join]
  unfold feedOne scanTop
  simp only [List.flatten_cons, List.flatten_nil, List.nil_append, List.append_nil]
  rw [show (render (jobj fs1) ++ (lbrace :: mid ++ [rbrace])) ++ render (jobj fs2)
      = (lbrace :: renderFields fs1 ++ [rbrace])
        ++ ((lbrace :: mid ++ [rbrace]) ++ ((lbrace :: renderFields fs2 ++ [rbrace]) ++ []))
      from by simp [render]]
  rw [show initScan = (⟨[], [], 0, false, false⟩ : ScanState) from rfl]
  rw [scanFull_obj _ _ _ _ (tame_renderFields fs1)]
  rw [show initScan = (⟨[], [], 0, false, false⟩ : ScanState) from rfl]
  rw [scanFull_obj _ _ _ _ hmid]
  rw [show initScan = (⟨[], [], 0, false, false⟩ : ScanState) from rfl]
  rw [scanFull_obj _ _ _ _ (tame_renderFields fs2)]
  have hp1 : parseEventFn (lbrace :: (renderFields fs1 ++ [rbrace]))
      = some (classify (jobj fs1)) := by
    rw [show lbrace :: (renderFields fs1 ++ [rbrace]) = render (jobj fs1) from by
      simp [render]]
    exact parseEventFn_render fs1
  have hp2 : parseEventFn (lbrace :: (renderFields fs2 ++ [rbrace]))
      = some (classify (jobj fs2)) := by
    rw [show lbrace :: (renderFields fs2 ++ [rbrace]) = render (jobj fs2) from by
      simp [render]]
    exact parseEventFn_render fs2
  have hbad2 : parseEventFn (lbrace :: (mid ++ [rbrace])) = none := by
    rw [show lbrace :: (mid ++ [rbrace]) = (lbrace :: mid) ++ [rbrace] from by simp]
    exact hbad
  simp [scanFull, initScan, List.filterMap_cons, hp1, hp2, hbad2]

theorem c8_malformed_span_skipped_witness :
    feedAll [render (jobj c1fs1) ++ (lbrace :: [','] ++ [rbrace]),
        render (jobj c1fs2)] []
      = ([classify (jobj c1fs1), classify (jobj c1fs2)], []) :=
  c8_malformed_span_skipped c1fs1 c1fs2 [',']
    (tame_plain ⟨by decide, by decide, by decide, by decide⟩)
    (by rfl) (by decide) (by decide)

/-! ### Path validation (`SecureWipeUtils`, secure-wipe.utils.ts)

The filesystem and platform are an explicit oracle record; `path.resolve`,
`path.isAbsolute`, `fs.existsSync` and `statSync(..).isFile()` are oracle
fields, as is `hasElevatedPrivileges()`.  `fs` errors inside
`validateFilePath`'s try/catch are not modelled separately: the oracle
returns the observed boolean. -/

/-- Environment oracle for the path validator. -/
structure FsEnv : Type where
  resolve : List Char → List Char
  isAbsolute : List Char → Bool
  fsExists : List Char → Bool
  isFile : List Char → Bool
  elevated : Bool
  sep : Char

/-- JS `String.prototype.includes`. -/
def containsSub (needle : List Char) : List Char → Bool
  | [] => needle.isEmpty
  | c :: t => needle.isPrefixOf (c :: t) || containsSub needle t

/-- `isBlockDevice` (utils lines 69-84): `/dev/` prefix, the
`\\.\PhysicalDrive` prefix, or the `\\.\X:` volume pattern. -/
def isBlockDevice (filePath : List Char) : Bool :=
  "/dev/".data.isPrefixOf filePath ||
  ([bslash, bslash, '.', bslash] ++ "PhysicalDrive".data).isPrefixOf filePath ||
  (match filePath with
   | [a, b, c, d, e, f] =>
     (a == bslash) && (b == bslash) && (c == '.') && (d == bslash) &&
       (65 ≤ e.toNat && e.toNat ≤ 90) && (f == ':')
   | _ => false)

/-- Result of `validateFilePath`. -/
structure VRes : Type where
  valid : Bool
  error : Option (List Char)
deriving Repr, DecidableEq

def dangerousPatternsMsg : List Char :=
  "Path contains potentially dangerous patterns".data

def nullBytesMsg : List Char := "Path contains null bytes".data

def notAbsoluteMsg : List Char := "Path must be absolute".data

def notExistMsg : List Char := "File does not exist".data

def notFileMsg : List Char := "Path is not a regular file".data

/-- `validateFilePath` (utils lines 18-64): dangerous patterns, null bytes,
absoluteness; existence and regular-file checks only for non-block-device
targets. -/
def validateFilePath (env : FsEnv) (filePath : List Char) : VRes :=
  let resolvedPath := env.resolve filePath
  if containsSub "..".data filePath || containsSub "~".data filePath then
    ⟨false, some dangerousPatternsMsg⟩
  else if containsSub [Char.ofNat 0] filePath then ⟨false, some nullBytesMsg⟩
  else if !env.isAbsolute resolvedPath then ⟨false, some notAbsoluteMsg⟩
  else if !isBlockDevice filePath then
    if !env.fsExists resolvedPath then ⟨false, some notExistMsg⟩
    else if !env.isFile resolvedPath then ⟨false, some notFileMsg⟩
    else ⟨true, none⟩
  else ⟨true, none⟩

/-- The purely lexical part of `validateFilePath`: what it computes on
targets for which the filesystem is never consulted. -/
def validateFilePathLex (env : FsEnv) (filePath : List Char) : VRes :=
  let resolvedPath := env.resolve filePath
  if containsSub "..".data filePath || containsSub "~".data filePath then
    ⟨false, some dangerousPatternsMsg⟩
  else if containsSub [Char.ofNat 0] filePath then ⟨false, some nullBytesMsg⟩
  else if !env.isAbsolute resolvedPath then ⟨false, some notAbsoluteMsg⟩
  else ⟨true, none⟩

/-- Result of `isSafeToWipe`. -/
structure SRes : Type where
  safe : Bool
  warning : Option (List Char)
deriving Repr, DecidableEq

/-- The dangerous system path list of `isSafeToWipe`. -/
def dangerousPaths : List (List Char) :=
  ["/", "/boot", "/etc", "/usr", "/bin", "/sbin", "/lib",
    "C:\\", "C:\\Windows", "C:\\Program Files", "C:\\Users"].map String.data

def privilegesWarnMsg : List Char :=
  "Wiping block devices requires administrator/root privileges.".data

def entireDiskWarnMsg : List Char :=
  "You are attempting to wipe an entire disk. This will destroy all data and partitions on the device.".data

def dangerWarnMsg (d : List Char) : List Char :=
  "Attempting to wipe system directory: ".data ++ d ++
    ". This could damage your system.".data

/-- The `/\d+$/` test: the path ends in a decimal digit. -/
def endsWithDigit (s : List Char) : Bool :=
  match s.getLast? with
  | some c => isDigitCh c
  | none => false

/-- `isSafeToWipe` (utils lines 268-323): dangerous path list, then for
block devices the privilege check and the entire-disk warning. -/
def isSafeToWipe (env : FsEnv) (filePath : List Char) : SRes :=
  let resolvedPath := env.resolve filePath
  match dangerousPaths.find? (fun d =>
      resolvedPath == d || (d ++ [env.sep]).isPrefixOf resolvedPath) with
  | some d => ⟨false, some (dangerWarnMsg d)⟩
  | none =>
    if isBlockDevice filePath then
      if !env.elevated then ⟨false, some privilegesWarnMsg⟩
      else if containsSub "PhysicalDrive".data filePath ||
          ("/dev/".data.isPrefixOf filePath && !endsWithDigit filePath) then
        ⟨false, some entireDiskWarnMsg⟩
      else ⟨true, none⟩
    else ⟨true, none⟩

/-- The service's `validatePath` (service lines 128-153): `validateFilePath`
then `isSafeToWipe`, but a failed safety check is overridden — with only a
console warning — when the target is lexically a block device. -/
def validatePath (env : FsEnv) (filePath : List Char) : Bool :=
  if !(validateFilePath env filePath).valid then false
  else if !(isSafeToWipe env filePath).safe then
    if isBlockDevice filePath then true else false
  else true

/-! ### Argument-vector construction (`buildArgs`, service lines 189-264) -/

/-- The algorithm list of `validateAlgorithm`. -/
def validAlgorithms : List (List Char) :=
  ["dod5220", "gutmann", "random", "zeros", "ones"].map String.data

/-- `SecureWipeUtils.validateAlgorithm`. -/
def validateAlgorithm (alg : List Char) : Bool := validAlgorithms.contains alg

/-- `validateBufferSize` (KB; utils lines 186-207). -/
def validateBufferSize (b : Int) : VRes :=
  if b < 1 then ⟨false, some "Buffer size must be at least 1 KB".data⟩
  else if b > 1024 * 1024 then
    ⟨false, some "Buffer size cannot exceed 1 GB".data⟩
  else ⟨true, none⟩

/-- `validateDemoSize` (MB; utils lines 344-358). -/
def validateDemoSize (d : Int) : VRes :=
  if d < 1 then ⟨false, some "Demo size must be at least 1 MB".data⟩
  else if d > 10240 then ⟨false, some "Demo size cannot exceed 10 GB".data⟩
  else ⟨true, none⟩

/-- `SecureWipeConfig`: optional numeric fields keep JS truthiness (a
provided `0` is falsy). -/
structure SecureWipeConfig : Type where
  target : List Char
  algorithm : List Char
  demo : Bool
  demoSize : Option Int
  bufferSize : Option Int
  passes : Option Int

/-- Decimal rendering of a JS number used in argument vectors. -/
def intToChars : Int → List Char
  | .ofNat n => renderNum n
  | .negSucc m => '-' :: renderNum (m + 1)

/-- `addCoreArguments` (service lines 219-244): `--force`, algorithm
validation, then demo flags or validated `--target`.  Pushes into the
mutable array are modelled as appends; a `throw` discards the array. -/
def addCoreArguments (env : FsEnv) (cfg : SecureWipeConfig)
    (args : List (List Char)) : Except (List Char) (List (List Char)) :=
  let args := args ++ ["--force".data]
  if !validateAlgorithm cfg.algorithm then
    .error ("Invalid algorithm: ".data ++ cfg.algorithm)
  else
    let args := args ++ ["--algorithm".data, cfg.algorithm]
    if cfg.demo then
      let args := args ++ ["--demo".data]
      match cfg.demoSize with
      | some d =>
        if d ≠ 0 then
          let v := validateDemoSize d
          if !v.valid then
            .error ("Invalid demo size: ".data ++ v.error.getD [])
          else .ok (args ++ ["--demo-size".data, intToChars d])
        else .ok args
      | none => .ok args
    else
      if !validatePath env cfg.target then
        .error ("Invalid target path: ".data ++ cfg.target)
      else .ok (args ++ ["--target".data, cfg.target])

/-- `addOptionalArguments` (service lines 249-264): buffer size and pass
count, each only when provided and truthy; the pass count is range-checked
inline. -/
def addOptionalArguments (cfg : SecureWipeConfig)
    (args : List (List Char)) : Except (List Char) (List (List Char)) := do
  let args ← (match cfg.bufferSize with
    | some b =>
      if b ≠ 0 then
        let v := validateBufferSize b
        if !v.valid then
          Except.error ("Invalid buffer size: ".data ++ v.error.getD [])
        else Except.ok (args ++ ["--buffer-size".data, intToChars b])
      else Except.ok args
    | none => Except.ok args)
  match cfg.passes with
  | some p =>
    if p ≠ 0 then
      if p < 1 ∨ p > 100 then
        Except.error "Number of passes must be between 1 and 100".data
      else Except.ok (args ++ ["--passes".data, intToChars p])
    else Except.ok args
  | none => Except.ok args

/-- `buildArgs` (service lines 189-214): `--json`, then the utility modes,
else core and optional arguments. -/
def buildArgs (env : FsEnv) (cfg : SecureWipeConfig)
    (listDrives systemInfo : Bool) : Except (List Char) (List (List Char)) :=
  let args := ["--json".data]
  if listDrives then .ok (args ++ ["--list-drives".data])
  else if systemInfo then .ok (args ++ ["-s".data])
  else do
    let args ← addCoreArguments env cfg args
    addOptionalArguments cfg args

/-! ### The service handle (`activeProcess`) and the start of `wipeTarget` -/

/-- The mutable service state: the exclusive process handle and the JSON
buffer. -/
structure SvcState : Type where
  activeProcess : Option Nat
  jsonBuffer : List Char

/-- `isActive` (service lines 1000-1002). -/
def isActive (st : SvcState) : Bool := st.activeProcess.isSome

/-- The synchronous prefix of `wipeTarget` (service lines 642-651): build
the argument vector — rejecting the promise on a validation throw — then
spawn and store the new handle.  There is no `isActive` guard: the code
assigns `this.activeProcess` unconditionally. -/
def wipeStart (env : FsEnv) (cfg : SecureWipeConfig) (st : SvcState)
    (newPid : Nat) : Except (List Char) (SvcState × List (List Char)) :=
  match buildArgs env cfg false false with
  | .error e => .error e
  | .ok args => .ok ({ st with activeProcess := some newPid }, args)

/-! ### Claims about validation and argument construction -/

/-- A permissive oracle environment: identity resolution, everything
absolute and existing, no elevated rights. -/
def envT : FsEnv := ⟨id, fun _ => true, fun _ => true, fun _ => true, false, '/'⟩

/-- C5 counterexample. The claim says a lexically block-device target with
no elevated rights fails validation with an insufficient-privileges reason;
in the code `validatePath` overrides the failed safety check for block
devices and validation passes. -/
theorem c5_counterexample :
    isBlockDevice "/dev/sda1".data = true ∧
    envT.elevated = false ∧
    isSafeToWipe envT "/dev/sda1".data = ⟨false, some privilegesWarnMsg⟩ ∧
    validatePath envT "/dev/sda1".data = true :=
  ⟨rfl, rfl, rfl, rfl⟩

/-- C5 (amended). Block-device targets skip the existence and regular-file
checks (`validateFilePath` degenerates to its purely lexical part), and the
dangerous-path and privilege checks of `isSafeToWipe`, though evaluated,
are overridden for block devices: overall validation equals the lexical
check alone, so a non-elevated block-device wipe proceeds to spawn. -/
theorem c5_block_device_validation (env : FsEnv) (p : List Char)
    (h : isBlockDevice p = true) :
    validateFilePath env p = validateFilePathLex env p ∧
    validatePath env p = (validateFilePathLex env p).valid := by
  have h1 : validateFilePath env p = validateFilePathLex env p := by
    unfold validateFilePath validateFilePathLex
    simp [h]
  refine ⟨h1, ?_⟩
  unfold validatePath
  rw [h1]
  by_cases hv : (validateFilePathLex env p).valid = true
  · by_cases hs : (isSafeToWipe env p).safe = true
    · simp [hv, hs]
    · simp [hv, hs, h]
  · simp [hv]

theorem c5_block_device_validation_witness :
    validateFilePath envT "/dev/sda1".data
        = validateFilePathLex envT "/dev/sda1".data ∧
    validatePath envT "/dev/sda1".data
        = (validateFilePathLex envT "/dev/sda1".data).valid :=
  c5_block_device_validation envT "/dev/sda1".data (by decide)

/-- Mode-specific flags of the argument vector (demo or target). -/
def modeArgs (cfg : SecureWipeConfig) : List (List Char) :=
  if cfg.demo then
    ["--demo".data] ++ (match cfg.demoSize with
      | some d => if d ≠ 0 then ["--demo-size".data, intToChars d] else []
      | none => [])
  else ["--target".data, cfg.target]

/-- Optional tuning flags of the argument vector. -/
def tuningArgs (cfg : SecureWipeConfig) : List (List Char) :=
  (match cfg.bufferSize with
    | some b => if b ≠ 0 then ["--buffer-size".data, intToChars b] else []
    | none => []) ++
  (match cfg.passes with
    | some p => if p ≠ 0 then ["--passes".data, intToChars p] else []
    | none => [])

/-- Successful core-argument construction yields the fixed prefix followed
by the mode-specific flags. -/
theorem addCore_ok_shape (env : FsEnv) (cfg : SecureWipeConfig)
    (args0 cargs : List (List Char))
    (h : addCoreArguments env cfg args0 = .ok cargs) :
    cargs = args0 ++ ["--force".data, "--algorithm".data, cfg.algorithm]
      ++ modeArgs cfg := by
  unfold addCoreArguments at h
  unfold modeArgs
  by_cases halg : validateAlgorithm cfg.algorithm = true
  · cases hdemo : cfg.demo with
    | false =>
      by_cases hv : validatePath env cfg.target = true
      · simp [halg, hdemo, hv] at h
        simp [← h, hdemo]
      · simp [halg, hdemo, hv] at h
    | true =>
      cases hds : cfg.demoSize with
      | none =>
        simp [halg, hdemo, hds] at h
        simp [← h, hdemo, hds]
      | some d =>
        by_cases hdz : d = 0
        · simp [halg, hdemo, hds, hdz] at h
          simp [← h, hdemo, hds, hdz]
        · by_cases hval : (validateDemoSize d).valid = true
          · simp [halg, hdemo, hds, hdz, hval] at h
            simp [← h, hdemo, hds, hdz, hval]
          · simp [halg, hdemo, hds, hdz, hval] at h
  · simp [halg] at h

/-- Bind on `Except`: success feeds through. -/
@[simp] theorem except_bind_ok {e a b : Type} (x : a) (f : a → Except e b) :
    (Except.ok x >>= f : Except e b) = f x := rfl

/-- Bind on `Except`: an error short-circuits. -/
@[simp] theorem except_bind_err {e a b : Type} (err : e) (f : a → Except e b) :
    (Except.error err >>= f : Except e b) = Except.error err := rfl

@[simp] theorem except_isOk_ok {e a : Type} (x : a) :
    (Except.ok x : Except e a).isOk = true := rfl

@[simp] theorem except_isOk_err {e a : Type} (err : e) :
    (Except.error err : Except e a).isOk = false := rfl

/-- Successful optional-argument construction appends exactly the tuning
flags. -/
theorem addOptional_ok_shape (cfg : SecureWipeConfig)
    (args0 args : List (List Char))
    (h : addOptionalArguments cfg args0 = .ok args) :
    args = args0 ++ tuningArgs cfg := by
  unfold addOptionalArguments at h
  unfold tuningArgs
  cases hbs : cfg.bufferSize with
  | none =>
    cases hps : cfg.passes with
    | none => simp [hbs, hps] at h; simp [← h, hbs, hps]
    | some p =>
      by_cases hpz : p = 0
      · simp [hbs, hps, hpz] at h; simp [← h, hbs, hps, hpz]
      · by_cases hpr : p < 1 ∨ p > 100
        · simp [hbs, hps, hpz, hpr] at h
        · simp [hbs, hps, hpz, hpr] at h; simp [← h, hbs, hps, hpz, hpr]
  | some b =>
    by_cases hbz : b = 0
    · cases hps : cfg.passes with
      | none => simp [hbs, hps, hbz] at h; simp [← h, hbs, hps, hbz]
      | some p =>
        by_cases hpz : p = 0
        · simp [hbs, hps, hbz, hpz] at h; simp [← h, hbs, hps, hbz, hpz]
        · by_cases hpr : p < 1 ∨ p > 100
          · simp [hbs, hps, hbz, hpz, hpr] at h
          · simp [hbs, hps, hbz, hpz, hpr] at h
            simp [← h, hbs, hps, hbz, hpz, hpr]
    · by_cases hbv : (validateBufferSize b).valid = true
      · cases hps : cfg.passes with
        | none =>
          simp [hbs, hps, hbz, hbv] at h
          simp [← h, hbs, hps, hbz, hbv]
        | some p =>
          by_cases hpz : p = 0
          · simp [hbs, hps, hbz, hbv, hpz] at h
            simp [← h, hbs, hps, hbz, hbv, hpz]
          · by_cases hpr : p < 1 ∨ p > 100
            · simp [hbs, hps, hbz, hbv, hpz, hpr] at h
            · simp [hbs, hps, hbz, hbv, hpz, hpr] at h
              simp [← h, hbs, hps, hbz, hbv, hpz, hpr]
      · simp [hbs, hbz, hbv] at h

/-- C9 (amended). The argument vector is deterministic — fixed global flags
(`--json`, `--force`, `--algorithm`), then mode-specific flags, then
optional tuning flags; a provided nonzero pass count outside 1..100 raises
a validation error before any spawn, while a provided pass count of `0` is
falsy in JS and is silently treated as absent (no flag, no error); and the
zeros-on-existing-file example produces exactly the zero-fill selector and
the literal target path with no tuning flags. -/
theorem c9_argument_vector :
    (∀ (env : FsEnv) (cfg : SecureWipeConfig) (args : List (List Char)),
      buildArgs env cfg false false = .ok args →
      args = ["--json".data, "--force".data, "--algorithm".data, cfg.algorithm]
        ++ modeArgs cfg ++ tuningArgs cfg) ∧
    (∀ (env : FsEnv) (cfg : SecureWipeConfig) (p : Int),
      cfg.passes = some p → p ≠ 0 → (p < 1 ∨ p > 100) →
      (buildArgs env cfg false false).isOk = false) ∧
    (∀ (env : FsEnv) (cfg : SecureWipeConfig),
      cfg.passes = some 0 → cfg.demo = true → cfg.demoSize = none →
      cfg.bufferSize = none → validateAlgorithm cfg.algorithm = true →
      (buildArgs env cfg false false).isOk = true) ∧
    buildArgs envT ⟨"/tmp/demo.bin".data, "zeros".data, false, none, none, none⟩
        false false
      = .ok ["--json".data, "--force".data, "--algorithm".data, "zeros".data,
          "--target".data, "/tmp/demo.bin".data] := by
  refine ⟨?_, ?_, ?_, by rfl⟩
  · intro env cfg args h
    unfold buildArgs at h
    simp only [Bool.false_eq_true, if_false] at h
    cases hcore : addCoreArguments env cfg ["--json".data] with
    | error e => rw [hcore] at h; simp at h
    | ok cargs =>
      rw [hcore] at h
      simp only [except_bind_ok] at h
      have h1 := addCore_ok_shape env cfg _ _ hcore
      have h2 := addOptional_ok_shape cfg _ _ h
      rw [h2, h1]
      simp
  · intro env cfg p hp hnz hrange
    unfold buildArgs
    simp only [Bool.false_eq_true, if_false]
    cases hcore : addCoreArguments env cfg ["--json".data] with
    | error e => simp
    | ok cargs =>
      simp only [except_bind_ok]
      unfold addOptionalArguments
      cases hbs : cfg.bufferSize with
      | none => simp [hp, hnz, hrange]
      | some b =>
        by_cases hbz : b = 0
        · simp [hbz, hp, hnz, hrange]
        · by_cases hbv : (validateBufferSize b).valid = true
          · simp [hbz, hbv, hp, hnz, hrange]
          · simp [hbz, hbv]
  · intro env cfg hp hdemo hds hbs halg
    unfold buildArgs addCoreArguments addOptionalArguments
    simp [hp, hdemo, hds, hbs, halg]

/-- C9 counterexample. The claim as stated — a provided pass count outside
1..100 always raises a validation error before any spawn — is false: a
provided pass count of `0` is falsy in JS, so `if (config.passes)` skips
both the range check and the flag, and the build succeeds. -/
theorem c9_counterexample :
    ¬ (∀ (env : FsEnv) (cfg : SecureWipeConfig) (p : Int),
      cfg.passes = some p → (p < 1 ∨ p > 100) →
      (buildArgs env cfg false false).isOk = false) := by
  intro h
  have := h envT ⟨[], "zeros".data, true, none, none, some 0⟩ 0 rfl
    (Or.inl (by omega))
  rw [show (buildArgs envT ⟨[], "zeros".data, true, none, none, some 0⟩
      false false).isOk = true from rfl] at this
  exact Bool.noConfusion this

theorem c9_argument_vector_witness :
    (buildArgs envT ⟨[], "random".data, true, none, none, some 200⟩
        false false).isOk = false ∧
    (buildArgs envT ⟨[], "random".data, true, none, none, some 0⟩
        false false).isOk = true :=
  ⟨c9_argument_vector.2.1 envT ⟨[], "random".data, true, none, none, some 200⟩
      200 rfl (by omega) (Or.inr (by omega)),
    c9_argument_vector.2.2.1 envT ⟨[], "random".data, true, none, none, some 0⟩
      rfl rfl rfl rfl (by decide)⟩

/-- C10. A target containing `~` anywhere, or the substring `..`, is
rejected by `validateFilePath` with the dangerous-patterns error regardless
of the filesystem (even absolute, existing regular files), so a non-demo
wipe of such a target fails at argument construction, before any spawn. -/
theorem c10_dangerous_patterns_rejected (env : FsEnv)
    (cfg : SecureWipeConfig) (st : SvcState) (pid : Nat)
    (hp : containsSub "~".data cfg.target = true ∨
      containsSub "..".data cfg.target = true)
    (hdemo : cfg.demo = false)
    (halg : validateAlgorithm cfg.algorithm = true) :
    validateFilePath env cfg.target = ⟨false, some dangerousPatternsMsg⟩ ∧
    validatePath env cfg.target = false ∧
    wipeStart env cfg st pid
      = .error ("Invalid target path: ".data ++ cfg.target) := by
  have hbad : (containsSub "..".data cfg.target
      || containsSub "~".data cfg.target) = true := by
    rcases hp with h | h <;> simp [h]
  have h1 : validateFilePath env cfg.target
      = ⟨false, some dangerousPatternsMsg⟩ := by
    unfold validateFilePath
    simp [hbad]
  have h2 : validatePath env cfg.target = false := by
    unfold validatePath
    simp [h1]
  refine ⟨h1, h2, ?_⟩
  unfold wipeStart buildArgs addCoreArguments
  simp [halg, hdemo, h2]

theorem c10_dangerous_patterns_rejected_witness :
    validateFilePath envT "/tmp/~backup.bin".data
        = ⟨false, some dangerousPatternsMsg⟩ ∧
    validatePath envT "/tmp/~backup.bin".data = false ∧
    wipeStart envT ⟨"/tmp/~backup.bin".data, "zeros".data, false, none, none, none⟩
        ⟨none, []⟩ 7
      = .error ("Invalid target path: ".data ++ "/tmp/~backup.bin".data) :=
  c10_dangerous_patterns_rejected envT
    ⟨"/tmp/~backup.bin".data, "zeros".data, false, none, none, none⟩
    ⟨none, []⟩ 7 (Or.inl (by decide)) rfl (by decide)

/-- C3 counterexample. The claim says a second start call while a handle is
held (`isActive`) is rejected before any spawn; in the code `wipeTarget`
never consults `isActive` and spawns unconditionally, overwriting the held
handle. -/
theorem c3_counterexample :
    ¬ (∀ (env : FsEnv) (cfg : SecureWipeConfig) (st : SvcState) (pid : Nat),
      isActive st = true → (wipeStart env cfg st pid).isOk = false) := by
  intro h
  have := h envT ⟨[], "random".data, true, none, none, none⟩ ⟨some 0, []⟩ 1 rfl
  rw [show (wipeStart envT ⟨[], "random".data, true, none, none, none⟩
      ⟨some 0, []⟩ 1).isOk = true from rfl] at this
  exact Bool.noConfusion this

/-- C3 (amended). A second start call while an operation is active is not
rejected: whenever its configuration validates, `wipeTarget` proceeds to
spawn and overwrites the held handle — `isActive` is advisory only and is
never consulted before the spawn. -/
theorem c3_no_second_start_guard (env : FsEnv) (cfg : SecureWipeConfig)
    (st : SvcState) (pid : Nat) (args : List (List Char))
    (h : buildArgs env cfg false false = .ok args) :
    wipeStart env cfg st pid = .ok ({ st with activeProcess := some pid }, args) := by
  unfold wipeStart
  rw [h]

theorem c3_no_second_start_guard_witness :
    isActive ⟨some 0, []⟩ = true ∧
    wipeStart envT ⟨[], "random".data, true, none, none, none⟩ ⟨some 0, []⟩ 1
      = .ok (⟨some 1, []⟩,
          ["--json".data, "--force".data, "--algorithm".data, "random".data,
            "--demo".data]) :=
  ⟨rfl, c3_no_second_start_guard envT ⟨[], "random".data, true, none, none, none⟩
    ⟨some 0, []⟩ 1 _ rfl⟩

/-! ### The per-operation runtime of `wipeTarget` (service lines 638-730)

One operation's lifetime is a trace of runtime actions — stdout data
chunks, stderr data chunks, and user calls to `cancel` — ending in the
child's `close` event carrying the exit code (`null` when killed by a
signal).  The handlers mutate the closure state `hasError` /
`errorMessage`, the service buffer and handle, and forward events to the
sink; the `close` handler resolves the result. -/

/-- A runtime action during one operation. -/
inductive RtEvent : Type where
  | out (data : List Char)
  | errData (data : List Char)
  | cancelCall

/-- The mutable state of one running operation. -/
structure RunState : Type where
  active : Bool
  buffer : List Char
  hasError : Bool
  errorMessage : List Char
  sink : List JVal

/-- JS `event.type === 'error'`-style check: the field is exactly the
given string. -/
def typeIs (v : JVal) (t : List Char) : Bool :=
  match getField v "type".data with
  | some (jstr s) => s == t
  | _ => false

/-- `wipeEvent.message` as assigned to `errorMessage`; the protocol types
the message of an error event as a string. -/
def errMsgOf (v : JVal) : List Char :=
  match getField v "message".data with
  | some (jstr s) => s
  | _ => []

/-- The synthetic cancellation event `cancel()` emits (its real `timestamp`
field is wall-clock time and is omitted from the model). -/
def cancelEventVal : JVal :=
  jobj (fcons "type".data (jstr "info".data)
    (fcons "message".data (jstr "Operation cancelled by user".data) fnil))

/-- The stdout handler's loop over the parsed events: only values with a
`type` field are forwarded; an error-kind event sets `hasError` and
overwrites `errorMessage`. -/
def applyEvents : RunState → List Parsed → RunState
  | sto, [] => sto
  | sto, p :: rest =>
    let v := p.val
    if hasField v "type".data then
      let s1 := { sto with sink := sto.sink ++ [v] }
      let s2 := if typeIs v "error".data then
          { s1 with hasError := true, errorMessage := errMsgOf v }
        else s1
      applyEvents s2 rest
    else applyEvents sto rest

/-- One runtime step: the stdout handler (parse chunks against the service
buffer), the stderr handler (append trimmed text), or `cancel` (emit the
synthetic info event, signal the child, clear handle and buffer). -/
def stepRun (sto : RunState) : RtEvent → RunState
  | .out d =>
    let p := feedOne sto.buffer d
    applyEvents { sto with buffer := p.2 } p.1
  | .errData d =>
    let m := trimChars d
    if m.isEmpty then sto
    else { sto with errorMessage := sto.errorMessage ++
        (if sto.errorMessage.isEmpty then [] else ['\n']) ++ m }
  | .cancelCall =>
    if sto.active then
      { sto with active := false, buffer := [],
                 sink := sto.sink ++ [cancelEventVal] }
    else sto

/-- Run a whole trace from the state right after a successful spawn. -/
def runStdio (trace : List RtEvent) : RunState :=
  trace.foldl stepRun ⟨true, [], false, [], []⟩

/-- The resolved result of an operation. -/
structure WipeResult : Type where
  success : Bool
  error : Option (List Char)
  exitCode : Option Int

/-- The fallback failure message `Process exited with code N` (JS prints
`null` for a null exit code). -/
def fallbackMsg (code : Option Int) : List Char :=
  "Process exited with code ".data ++
    (match code with
     | some n => intToChars n
     | none => "null".data)

/-- The `close` handler (service lines 694-709): exit code 0 with no
observed error event resolves success; otherwise failure with the
accumulated message (or the fallback) and `code || undefined` — which
drops the exit code when it is `0` or `null`. -/
def closeResult (code : Option Int) (sto : RunState) : WipeResult :=
  if code == some 0 && !sto.hasError then ⟨true, none, code⟩
  else
    ⟨false,
      some (if !sto.errorMessage.isEmpty then sto.errorMessage
            else fallbackMsg code),
      match code with
      | some n => if n == 0 then none else some n
      | none => none⟩

/-- The result `wipeTarget` resolves for a trace and an exit code. -/
def runWipe (trace : List RtEvent) (code : Option Int) : WipeResult :=
  closeResult code (runStdio trace)

/-- Whether an error-kind event was observed on stdout during the trace. -/
def observedError (trace : List RtEvent) : Bool := (runStdio trace).hasError

/-- The resolved result is success exactly when the exit code is 0 and no
error-kind event was observed; shared spine of the C2 and C4 analyses. -/
theorem runWipe_success_iff (trace : List RtEvent) (code : Option Int) :
    (runWipe trace code).success = true ↔
      (code = some 0 ∧ observedError trace = false) := by
  unfold runWipe closeResult observedError
  by_cases hc : code = some 0
  · by_cases he : (runStdio trace).hasError = true
    · simp [hc, he]
    · simp [hc, he]
  · have : (code == some 0) = false := by
      simp [beq_eq_false_iff_ne, hc]
    simp [this, hc]

/-- A well-formed error event for concrete runs. -/
def errEventStr : List Char :=
  render (jobj (fcons "type".data (jstr "error".data)
    (fcons "message".data (jstr "boom".data) fnil)))

/-- C2 counterexample. The claim says every failure result carries the
exit code; but the code resolves `exitCode: code || undefined`, so a
failure with exit code 0 (an error event was observed) carries no exit
code at all. -/
theorem c2_counterexample :
    ¬ (∀ (trace : List RtEvent) (code : Option Int),
      ((runWipe trace code).success = true ↔
        (code = some 0 ∧ observedError trace = false)) ∧
      ((runWipe trace code).success = false →
        (runWipe trace code).exitCode = code)) := by
  intro h
  have h2 := (h [RtEvent.out errEventStr] (some 0)).2
  have hfail : (runWipe [RtEvent.out errEventStr] (some 0)).success = false := by
    rfl
  have hx := h2 hfail
  rw [show (runWipe [RtEvent.out errEventStr] (some 0)).exitCode = none
    from rfl] at hx
  exact Option.noConfusion hx

/-- C2 (amended). The resolved result is success exactly when the exit
code is 0 and no error-kind event was observed on stdout; a success carries
the exit code; every other case is a failure carrying the accumulated
error text (most recent error event, with stderr appended) or the fallback
`Process exited with code N` — but the failure's exit-code field is
`code || undefined`: present only when the exit code is nonzero, absent
when it is 0 or null. -/
theorem c2_close_result (trace : List RtEvent) (code : Option Int) :
    ((runWipe trace code).success = true ↔
      (code = some 0 ∧ observedError trace = false)) ∧
    ((runWipe trace code).success = true →
      (runWipe trace code).error = none ∧
      (runWipe trace code).exitCode = code) ∧
    ((runWipe trace code).success = false →
      (runWipe trace code).error
        = some (if !(runStdio trace).errorMessage.isEmpty
            then (runStdio trace).errorMessage else fallbackMsg code) ∧
      (runWipe trace code).exitCode
        = (match code with
           | some n => if n = 0 then none else some n
           | none => none)) := by
  refine ⟨runWipe_success_iff trace code, ?_, ?_⟩ <;>
    (intro h
     revert h
     unfold runWipe closeResult
     by_cases hc : (code == some 0 && !(runStdio trace).hasError) = true <;>
       simp [hc]
     try (cases code with
      | none => simp
      | some n => by_cases hn : n = 0 <;> simp [hn]))

theorem c2_close_result_witness :
    (runWipe [RtEvent.out errEventStr] (some 0)).success = false ∧
    (runWipe [RtEvent.out errEventStr] (some 0)).error = some "boom".data ∧
    (runWipe [RtEvent.out errEventStr] (some 0)).exitCode = none := by
  have h := (c2_close_result [RtEvent.out errEventStr] (some 0)).2.2 (by rfl)
  exact ⟨by rfl, h.1, h.2⟩

/-- C4 counterexample. The claim says a cancelled operation never resolves
success; but `cancel()` sets no flag the `close` handler consults, so a
child that exits with code 0 and no error event right after the signal
resolves success. -/
theorem c4_counterexample :
    ¬ (∀ (trace : List RtEvent) (code : Option Int),
      RtEvent.cancelCall ∈ trace → (runWipe trace code).success = false) := by
  intro h
  have := h [RtEvent.cancelCall] (some 0) (by simp)
  rw [show (runWipe [RtEvent.cancelCall] (some 0)).success = true from rfl] at this
  exact Bool.noConfusion this

/-- C4 (amended). Cancellation emits the synthetic info event, signals the
child and clears the handle and buffer, but it does not influence the
resolved result: even on a trace containing a `cancel()` call, the
operation resolves success exactly when the exit code is 0 and no
error-kind event was observed — so a child exiting 0 right after the
signal yields success, not failure. -/
theorem c4_cancel_no_failure_guarantee (trace : List RtEvent)
    (code : Option Int) (hc : RtEvent.cancelCall ∈ trace) :
    (runWipe trace code).success = true ↔
      (code = some 0 ∧ observedError trace = false) :=
  runWipe_success_iff trace code

theorem c4_cancel_no_failure_guarantee_witness :
    (runWipe [RtEvent.cancelCall] (some 0)).success = true :=
  (c4_cancel_no_failure_guarantee [RtEvent.cancelCall] (some 0)
    (by simp)).mpr ⟨rfl, by rfl⟩

/-! ### Privilege checking (`AdminPrivilegesUtils`)

Paths are component lists (`path.dirname` drops the last component); the
filesystem is an oracle mapping a path to the observed outcome of
`fs.promises.stat` plus, for directories, the marker-file write probe.
Every fallible call in the source is wrapped in try/catch, so the model is
a total function: `checkPrivileges` never throws. -/

/-- Outcome of `stat` plus the write probe at one path. -/
inductive StatRes : Type where
  | statError : StatRes
  | statDir : Bool → StatRes
  | statFile : StatRes

/-- Platform/identity oracle for the privilege resolver. -/
structure PrivEnv : Type where
  isRoot : Bool
  currentUser : List Char
  platform : List Char
  stat : List (List Char) → StatRes
  hasPkexec : Bool
  hasSudo : Bool

/-- `targetRequiresPrivileges` (part_006 lines 127-156): stat the target;
a stat error means privileges are assumed needed; a directory answers via
the write probe; a file recurses on its parent directory.  On a real
filesystem the root is always a directory, so the file-at-root case is
unreachable; it conservatively answers `true`. -/
def targetRequiresPrivileges (env : PrivEnv) : List (List Char) → Bool
  | [] =>
    match env.stat [] with
    | .statError => true
    | .statDir writable => !writable
    | .statFile => true
  | a :: r =>
    match env.stat (a :: r) with
    | .statError => true
    | .statDir writable => !writable
    | .statFile => targetRequiresPrivileges env ((a :: r).dropLast)
termination_by p => p.length
decreasing_by simp [List.length_dropLast]

/-- One-step unfolding of `targetRequiresPrivileges`, matching the shape
of the source. -/
theorem targetRequiresPrivileges_eq (env : PrivEnv) (p : List (List Char)) :
    targetRequiresPrivileges env p =
      match env.stat p with
      | .statError => true
      | .statDir writable => !writable
      | .statFile =>
        match p with
        | [] => true
        | _ :: _ => targetRequiresPrivileges env p.dropLast := by
  cases p with
  | nil =>
    rw [targetRequiresPrivileges]
  | cons a r =>
    rw [targetRequiresPrivileges]

/-- `getElevationMethod` (part_006 lines 161-189). -/
def getElevationMethod (env : PrivEnv) : List Char :=
  if env.platform == "linux".data then
    if env.hasPkexec then "pkexec".data
    else if env.hasSudo then "sudo".data
    else "none".data
  else if env.platform == "darwin".data then "sudo".data
  else if env.platform == "win32".data then "runas".data
  else "none".data

/-- The result record of `checkPrivileges`. -/
structure PrivilegeCheckResult : Type where
  hasPrivileges : Bool
  needsElevation : Bool
  currentUser : List Char
  isRoot : Bool
  platform : List Char
  method : Option (List Char)

/-- `checkPrivileges` (part_006 lines 43-79): root callers return at once;
otherwise a given target is probed, and no target defaults to elevation
needed. -/
def checkPrivileges (env : PrivEnv)
    (targetPath : Option (List (List Char))) : PrivilegeCheckResult :=
  let base : PrivilegeCheckResult :=
    ⟨env.isRoot, false, env.currentUser, env.isRoot, env.platform, none⟩
  if env.isRoot then base
  else
    match targetPath with
    | some t =>
      let needs := targetRequiresPrivileges env t
      if needs then
        { base with needsElevation := true,
                    method := some (getElevationMethod env) }
      else { base with needsElevation := false }
    | none =>
      { base with needsElevation := true,
                  method := some (getElevationMethod env) }

/-- C6. `checkPrivileges` is total (never throws: every filesystem failure
is caught), and: an elevated caller gets `hasPrivileges = true`,
`needsElevation = false` immediately for any target argument; a
non-elevated caller with no target defaults to `needsElevation = true`;
and for a given target every probe failure — stat error, write-probe
denial on the directory, or the same on a file's parent — yields
`needsElevation = true` instead of an exception. -/
theorem c6_check_privileges (env : PrivEnv) (t : List (List Char)) :
    (env.isRoot = true → ∀ tp : Option (List (List Char)),
      (checkPrivileges env tp).hasPrivileges = true ∧
      (checkPrivileges env tp).needsElevation = false) ∧
    (env.isRoot = false →
      (checkPrivileges env none).needsElevation = true) ∧
    (env.isRoot = false → env.stat t = .statError →
      (checkPrivileges env (some t)).needsElevation = true) ∧
    (env.isRoot = false → env.stat t = .statDir false →
      (checkPrivileges env (some t)).needsElevation = true) ∧
    (env.isRoot = false → env.stat t = .statFile → t ≠ [] →
      env.stat t.dropLast = .statDir false →
      (checkPrivileges env (some t)).needsElevation = true) := by
  refine ⟨?_, ?_, ?_, ?_, ?_⟩
  · intro hr tp
    unfold checkPrivileges
    simp [hr]
  · intro hr
    unfold checkPrivileges
    simp [hr]
  · intro hr hs
    have hreq : targetRequiresPrivileges env t = true := by
      rw [targetRequiresPrivileges_eq, hs]
    unfold checkPrivileges
    simp [hr, hreq]
  · intro hr hs
    have hreq : targetRequiresPrivileges env t = true := by
      rw [targetRequiresPrivileges_eq, hs]
      rfl
    unfold checkPrivileges
    simp [hr, hreq]
  · intro hr hs hne hp
    have hreq : targetRequiresPrivileges env t = true := by
      rw [targetRequiresPrivileges_eq, hs]
      cases t with
      | nil => rfl
      | cons a r =>
        rw [targetRequiresPrivileges_eq, hp]
        rfl
    unfold checkPrivileges
    simp [hr, hreq]

/-- A concrete oracle for the C6 witness: `/tmp/x` is a file whose parent
directory denies the write probe. -/
def privEnvW : PrivEnv :=
  ⟨false, "user".data, "linux".data,
    fun p => if p = ["tmp".data, "x".data] then .statFile
      else if p = ["tmp".data] then .statDir false
      else .statError,
    true, true⟩

theorem c6_check_privileges_witness :
    (checkPrivileges privEnvW none).needsElevation = true ∧
    (checkPrivileges privEnvW (some ["tmp".data, "x".data])).needsElevation
      = true :=
  ⟨(c6_check_privileges privEnvW []).2.1 rfl,
    (c6_check_privileges privEnvW ["tmp".data, "x".data]).2.2.2.2 rfl rfl
      (by simp) (by rfl)⟩
